import Mathlib

/-!
# Genetic algorithm on tile permutations (`geneticAlgorithm.h`)

A shallow embedding of the operators of `class GeneticAlgorithm`:
selection (`FitnessFunc`, `WeightedRandomChoice`, `SortIndexes`, `SelectParents`),
crossover (`Order1Crossover`, `CycleCrossover`), mutation
(`SingleSwapMutation`, `InversionMutation`), fitness (`MSE`, `Fitness`) and the
generation loop (`NewGeneration`).

Conventions of the embedding:

* a `std::vector` is a `List`; an access outside the vector is undefined behaviour in
  the source and is `none` here, so every operator returns an `Option`;
* every value drawn from a random generator (`drand48`, `std::mt19937`) is an argument:
  where the source re-draws until two positions are distinct, the arguments are the
  two values that leave the re-draw loop;
* `float` values are rationals (exact arithmetic); a division with a zero divisor has no
  finite value and is `none`. Where the order of the biased scores decides the result
  (the elites of `SelectParents`), the scores are computed with the rounding of the source
  (`roundBinary`, `FitnessFunc32`, `SelectParentsWith`);
* a loop that the source does not bound (`while(true)`, a re-draw loop, a recursion) takes
  a `fuel` argument;
* `res->nImages` is the argument `nImages`.
-/

namespace GeneticAlgorithm

variable {β : Type}

/-! ## Data model -/

/-- Modelled from the spec: the tile entry `std::pair<int, cv::Mat>` of `image.h` (not in
src), a pair of the original position id and the pixel block. The pixel block is an
arbitrary type `β`. -/
abbrev Tile (β : Type) := Nat × β

/-- Modelled from the spec: class `Image` of `image.h` (not in src), "an ordered sequence of
(original-position-id, pixel-block) pairs representing one candidate arrangement, plus a
scalar fitness value". `getImages` reads `images` (by reference), `setImages` replaces it,
`setImage p x` is `images[p] = x`, `getFitness` reads `fitness`. -/
structure Image (β : Type) where
  /-- The tile entries, in lattice order. -/
  images : List (Tile β)
  /-- The fitness value. -/
  fitness : ℚ

/-- The tile-id sequence of a candidate: the first components of its tile entries. -/
def Image.ids (im : Image β) : List Nat := im.images.map Prod.fst

/-- The candidate is a permutation of the tile ids `0, ..., n-1`. -/
def Image.IsPermutation (im : Image β) (n : Nat) : Prop := List.Perm im.ids (List.range n)

/-- The loop `for (i = 0; i < n; i++) dst[i + dstOff] = src[i + srcOff];` on vectors.
Reading or writing outside a vector gives `none`. -/
def assignLoop {α : Type} (n dstOff srcOff : Nat) (src dst : List α) : Option (List α) :=
  (List.range n).foldlM
    (fun d i =>
      match src[i + srcOff]? with
      | some x => if i + dstOff < d.length then some (d.set (i + dstOff) x) else none
      | none => none)
    dst

/-- The loop `for (auto p : positions) dst[p] = src[p];` on vectors
(`child.setImage(p, parent.getImages()[p])`). Reading or writing outside a vector gives
`none`. -/
def setLoop {α : Type} (src : List α) (positions : List Nat) (dst : List α) :
    Option (List α) :=
  positions.foldlM
    (fun d p =>
      match src[p]? with
      | some x => if p < d.length then some (d.set p x) else none
      | none => none)
    dst

/-! ## Mutation -/

/-- `SingleSwapMutation` (lines 279-293). `index1` and `index2` are the two positions that
leave the re-draw loop. -/
def SingleSwapMutation (index1 index2 : Nat) (child : Image β) : Option (Image β) :=
  let images := child.images
  match images[index1]?, images[index2]? with
  | some var, some other =>
    let images := images.set index1 other
    let images := images.set index2 var
    some { child with images := images }
  | _, _ => none

/-- The call `std::reverse(v.begin() + first, v.begin() + last)`: the entries of the
half-open range `[first, last)` in reverse order, the rest in place. A range that does not
lie inside the vector gives `none`. -/
def reverseRange {α : Type} (v : List α) (first last : Nat) : Option (List α) :=
  if first ≤ last ∧ last ≤ v.length then
    some (v.take first ++ ((v.drop first).take (last - first)).reverse ++ v.drop last)
  else none

/-- `InversionMutation` (lines 295-307). `index1` and `index2` are the two positions that
leave the re-draw loop; `getImages` returns the stored vector by reference, so the reversal
is in place. -/
def InversionMutation (index1 index2 : Nat) (child : Image β) : Option (Image β) :=
  let lo := min index1 index2
  let hi := max index1 index2
  match reverseRange child.images lo hi with
  | some images => some { child with images := images }
  | none => none

/-! ## Selection -/

/-- `FitnessFunc` (lines 176-179): `score/100 + i * 0.002`, in exact arithmetic;
`FitnessFunc32` is the same expression with the rounding of `float` and `double`. -/
def FitnessFunc (score : ℚ) (i : Int) : ℚ := score / 100 + i * (2 / 1000)

/-- The value `std::accumulate(n_fitness.begin(), n_fitness.end(), 0.0f)` of
`WeightedRandomChoice`: the upper end of the interval the pick is drawn from. -/
def accumulate (n_fitness : List ℚ) : ℚ := n_fitness.foldl (· + ·) 0

/-- The loop of `WeightedRandomChoice` (lines 196-202) from index `i` on, `current` being
the running sum so far: `some i` at the first index where the running sum exceeds `pick`,
`none` when the loop runs to the end. -/
def weightedLoop (pick : ℚ) : List ℚ → ℚ → Nat → Option Nat
  | [], _, _ => none
  | w :: rest, current, i =>
    let current := current + w
    if current > pick then some i else weightedLoop pick rest current (i + 1)

/-- `WeightedRandomChoice` (lines 189-204) with the drawn value `pick` as an argument; the
final `return 0` is the fallback after the loop. -/
def WeightedRandomChoice (n_fitness : List ℚ) (pick : ℚ) : Nat :=
  match weightedLoop pick n_fitness 0 0 with
  | some i => i
  | none => 0

/-- `SortIndexes` (lines 338-345): the indices `0, ..., size-1` sorted with the comparator
`v[i1] > v[i2]`. `std::sort` leaves no pair out of order, that is no `i2` before `i1` with
`v[i1] > v[i2]`; the order among equal values is not fixed by `std::sort`, the embedding
keeps them in index order. -/
def SortIndexes (v : List ℚ) : List Nat :=
  (List.range v.length).insertionSort (fun i1 i2 => ¬ (v.getD i2 0 > v.getD i1 0))

/-- All entries of a list of optional values, or `none` when one is missing. -/
def allSome {α : Type} : List (Option α) → Option (List α)
  | [] => some []
  | none :: _ => none
  | some a :: rest =>
    match allSome rest with
    | some l => some (a :: l)
    | none => none

/-- `SelectParents` (lines 108-122), up to the assignment of `best`; `picks i` is the value
drawn in the `i`-th call of `WeightedRandomChoice`. The pool `parents` has `nSelect + nBest`
slots, slot `i < nSelect` assigned `generation[WeightedRandomChoice(n_fitness)]` and slot
`nSelect + i` assigned `generation[bestIndexes[i]]`. Returns the pool and `best`. -/
def SelectParents (generation : List (Image β)) (picks : Nat → ℚ) (nSelect nBest : Nat)
    (iter : Int) : Option (List (Image β) × Image β) :=
  let n_fitness := generation.map (fun g => FitnessFunc g.fitness iter)
  match allSome ((List.range nSelect).map
      (fun i => generation[WeightedRandomChoice n_fitness (picks i)]?)) with
  | none => none
  | some selected =>
    let bestIndexes := SortIndexes n_fitness
    match allSome ((List.range nBest).map
        (fun i => match bestIndexes[i]? with
          | some b => generation[b]?
          | none => none)) with
    | none => none
    | some elite =>
      let parents := selected ++ elite
      match parents[nSelect + nBest - 1]? with
      | some best => some (parents, best)
      | none => none

/-! ## Crossover -/

/-- `RemoveDuplicates` (lines 328-336): for every entry `r` of `toRemove`, every entry of
`images` with the id of `r` is erased. After `images.erase(it)` the iterator `it` stands at
the entry that followed the erased one, so the inner loop keeps exactly the entries with
another id. -/
def RemoveDuplicates (images toRemove : List (Tile β)) : List (Tile β) :=
  toRemove.foldl (fun imgs r => imgs.filter (fun it => !decide (r.1 = it.1))) images

/-- `SortImages` (lines 323-326): sorted with the comparator `lhs.first < rhs.first`, so no
`rhs` stands before `lhs` with `lhs.first < rhs.first`. -/
def SortImages (toSort : List (Tile β)) : List (Tile β) :=
  toSort.insertionSort (fun lhs rhs => ¬ (rhs.1 < lhs.1))

/-- `Order1Crossover` (lines 206-238). `crosspoint1` and `crosspoint2` are the two cut
points that leave the re-draw loop. `images` and `fromParent1` start as vectors of
value-initialised pairs `(0, cv::Mat())`. The first loop assigns `images[i+min]` and
`fromParent1[i]` from `parent1Images[i]`; its two assignments are two `assignLoop`s. The
bound `parent2Images.size()-min` of the last loop is unsigned: when it wraps around the
loop leaves the vectors, which is `none`. Only `child` is assigned; `child2` is returned
as it came. -/
def Order1Crossover [Inhabited β] (nImages crosspoint1 crosspoint2 : Nat)
    (child child2 parent1 parent2 : Image β) : Option (Image β × Image β) :=
  let images : List (Tile β) := List.replicate nImages (0, default)
  let lo := min crosspoint1 crosspoint2
  let hi := max crosspoint1 crosspoint2
  let parent1Images := parent1.images
  let parent2Images := parent2.images
  let fromParent1 : List (Tile β) := List.replicate (hi - lo + 1) (0, default)
  match assignLoop (hi - lo + 1) lo 0 parent1Images images,
        assignLoop (hi - lo + 1) 0 0 parent1Images fromParent1 with
  | some images, some fromParent1 =>
    let parent2Images := SortImages (RemoveDuplicates parent2Images fromParent1)
    match assignLoop lo 0 0 parent2Images images with
    | some images =>
      if parent2Images.length < lo then none
      else
        match assignLoop (parent2Images.length - lo) (hi + 1) lo parent2Images images with
        | some images => some ({ child with images := images }, child2)
        | none => none
    | none => none
  | _, _ => none

/-- The recursive lambda `find` of `CycleCrossover` (lines 252-260); `fuel` bounds the
number of calls, `none` when it runs out or when `p1` is read outside its range.
`std::find` returns the first position of `current` in `p2`, or `p2.end()`. -/
def find (p1 p2 : List Nat) (startIndex : Nat) : Nat → Nat → List Nat → Option (List Nat)
  | 0, _, _ => none
  | fuel + 1, current, fromP2 =>
    let currentIndex := p2.indexOf current
    let fromP2 := fromP2 ++ [currentIndex]
    match p1[currentIndex]?, p1[startIndex]? with
    | some a, some s =>
      if a = s then some fromP2
      else if currentIndex ≠ p2.length then find p1 p2 startIndex fuel a fromP2
      else some fromP2
    | _, _ => none

/-- The vector of the first `nImages` tile ids of a parent (lines 244-250), `none` when
the parent has fewer entries. -/
def firstIds (nImages : Nat) (parent : Image β) : Option (List Nat) :=
  if nImages ≤ parent.images.length then some ((parent.images.take nImages).map Prod.fst)
  else none

/-- `CycleCrossover` (lines 240-277); `fuel` bounds the calls of each `find`. -/
def CycleCrossover (fuel nImages : Nat) (child1 child2 parent1 parent2 : Image β) :
    Option (Image β × Image β) :=
  match firstIds nImages parent1, firstIds nImages parent2 with
  | some p1, some p2 =>
    match p1[0]?, p2[0]? with
    | some start1, some start2 =>
      match find p1 p2 0 fuel start1 [] with
      | none => none
      | some indexFromParent =>
        match setLoop parent1.images indexFromParent parent2.images with
        | none => none
        | some images1 =>
          match find p2 p1 0 fuel start2 [] with
          | none => none
          | some indexFromParent =>
            match setLoop parent2.images indexFromParent parent1.images with
            | none => none
            | some images2 =>
              some ({ child1 with images := images1 }, { child2 with images := images2 })
    | _, _ => none
  | _, _ => none

/-- The map on positions that `find` follows: the position in `p2` of the id that `p1`
holds at position `i`. -/
def cycleStep (p1 p2 : List Nat) (i : Nat) : Nat := p2.indexOf (p1.getD i 0)

/-- Position `i` lies on the orbit of position `0` under `cycleStep p1 p2`. -/
def InOrbit (p1 p2 : List Nat) (i : Nat) : Prop := ∃ t : Nat, (cycleStep p1 p2)^[t] 0 = i

/-- The share of the roulette wheel of `WeightedRandomChoice` that a candidate of raw
fitness `f` has in generation `g`: its biased score `FitnessFunc f g` over the sum `max` of
the biased scores of the population. -/
def wheelShare (fitness : List ℚ) (f : ℚ) (g : Int) : ℚ :=
  FitnessFunc f g / accumulate (fitness.map (fun x => FitnessFunc x g))

/-! ## Fitness -/

/-- How a run of the loop of `NewGeneration` ends: through `break` (`finished`), with an
access outside a vector (`undefinedBehaviour`), or with a loop that has not ended when the
fuel is used up (`outOfFuel`). -/
inductive Outcome where
  | finished
  | undefinedBehaviour
  | outOfFuel
deriving DecidableEq

/-- The random values of one pass of the loop of `NewGeneration`: the value of
`parent1Index`, the successive values `int(drand48()*nParents)` drawn for `parent2Index`
(its first value and those of the re-draw loop), and the outcomes of the two tests
`drand48() < pMutation`. -/
structure PassDraws where
  /-- The value drawn for `parent1Index`. -/
  parent1Index : Nat
  /-- The `j`-th value drawn for `parent2Index`. -/
  parent2Index : Nat → Nat
  /-- The first test `drand48() < pMutation`. -/
  mutate1 : Bool
  /-- The second test `drand48() < pMutation`. -/
  mutate2 : Bool

/-- The state of the loop of `NewGeneration`: the vector `newGeneration`, the counter
`iter`, and two records of what has happened so far, the number of crossover calls and the
indices of `newGeneration` that were assigned. -/
structure Trace (β : Type) where
  /-- The vector `newGeneration`. -/
  newGeneration : List (Image β)
  /-- The counter `iter`. -/
  iter : Nat
  /-- The number of calls of the crossover operator so far. -/
  crossoverCalls : Nat
  /-- The indices of `newGeneration` assigned so far, in order. -/
  writes : List Nat

/-- The re-draw loop `while(parent1Index == parent2Index) parent2Index = ...` (lines
82-84), from the `j`-th drawn value on: the first drawn value that differs from
`parent1Index`, `none` when `fuel` values were all equal to it. -/
def redraw (parent1Index : Nat) (draws : Nat → Nat) : Nat → Nat → Option Nat
  | 0, _ => none
  | fuel + 1, j =>
    if parent1Index = draws j then redraw parent1Index draws fuel (j + 1)
    else some (draws j)

/-- The loop of `NewGeneration` (lines 76-104) from pass `k` on, at most `passes` passes.
`crossover k` and `mutation (2k)`, `mutation (2k+1)` are the bound operators with the
random values they draw in pass `k`; `fresh` is `Image(res->image, res->extracted)` and
`put` is `Image::put`, both of `image.h` (not in src). -/
def NewGenerationLoop (generationSize : Nat) (parents : List (Image β)) (fresh : Image β)
    (put : Image β → Image β)
    (crossover : Nat → Image β → Image β → Image β → Image β → Option (Image β × Image β))
    (mutation : Nat → Image β → Option (Image β)) (draws : Nat → PassDraws) (fuel : Nat) :
    Nat → Nat → Trace β → Trace β × Outcome
  | 0, _, tr => (tr, Outcome.outOfFuel)
  | passes + 1, k, tr =>
    if tr.iter ≥ generationSize then (tr, Outcome.finished)
    else
      match redraw (draws k).parent1Index (draws k).parent2Index fuel 0 with
      | none => (tr, Outcome.outOfFuel)
      | some parent2Index =>
        match parents[(draws k).parent1Index]?, parents[parent2Index]? with
        | some parent1, some parent2 =>
          match crossover k fresh fresh parent1 parent2 with
          | none =>
            ({ tr with crossoverCalls := tr.crossoverCalls + 1 }, Outcome.undefinedBehaviour)
          | some (child1, child2) =>
            match (if (draws k).mutate1 then mutation (2 * k) child1 else some child1),
                  (if (draws k).mutate2 then mutation (2 * k + 1) child2 else some child2) with
            | some child1, some child2 =>
              if tr.iter < tr.newGeneration.length then
                if tr.iter + 1 < tr.newGeneration.length then
                  NewGenerationLoop generationSize parents fresh put crossover mutation draws
                    fuel passes (k + 1)
                    { newGeneration :=
                        (tr.newGeneration.set tr.iter (put child1)).set (tr.iter + 1) (put child2)
                      iter := tr.iter + 2
                      crossoverCalls := tr.crossoverCalls + 1
                      writes := tr.writes ++ [tr.iter, tr.iter + 1] }
                else
                  ({ newGeneration := tr.newGeneration.set tr.iter (put child1)
                     iter := tr.iter + 1
                     crossoverCalls := tr.crossoverCalls + 1
                     writes := tr.writes ++ [tr.iter] }, Outcome.undefinedBehaviour)
              else
                ({ tr with crossoverCalls := tr.crossoverCalls + 1 },
                  Outcome.undefinedBehaviour)
            | _, _ =>
              ({ tr with crossoverCalls := tr.crossoverCalls + 1 },
                Outcome.undefinedBehaviour)
        | _, _ => (tr, Outcome.undefinedBehaviour)

/-- `NewGeneration` (lines 70-106): `newGeneration` starts as `generationSize`
default-constructed images `blank`, `iter` as `0`. When the outcome is `finished` the
member `generation` becomes the vector `newGeneration` of the returned state. `fuel` bounds
the passes of the loop and the draws of each re-draw loop. -/
def NewGeneration (generationSize : Nat) (blank : Image β) (parents : List (Image β))
    (fresh : Image β) (put : Image β → Image β)
    (crossover : Nat → Image β → Image β → Image β → Image β → Option (Image β × Image β))
    (mutation : Nat → Image β → Option (Image β)) (draws : Nat → PassDraws) (fuel : Nat) :
    Trace β × Outcome :=
  NewGenerationLoop generationSize parents fresh put crossover mutation draws fuel fuel 0
    { newGeneration := List.replicate generationSize blank
      iter := 0
      crossoverCalls := 0
      writes := [] }

/-- The two images that pass `k` of the loop of `NewGeneration` stores in `newGeneration`
(lines 81-103): the children that the crossover operator makes of the two drawn parents,
each mutated where its test `drand48() < pMutation` succeeds, after `put`. `none` when the
re-draw loop does not end within the fuel, a parent index leaves the pool or an operator
fails. -/
def passChildren (parents : List (Image β)) (fresh : Image β) (put : Image β → Image β)
    (crossover : Nat → Image β → Image β → Image β → Image β → Option (Image β × Image β))
    (mutation : Nat → Image β → Option (Image β)) (draws : Nat → PassDraws) (fuel k : Nat) :
    Option (Image β × Image β) :=
  match redraw (draws k).parent1Index (draws k).parent2Index fuel 0 with
  | none => none
  | some parent2Index =>
    match parents[(draws k).parent1Index]?, parents[parent2Index]? with
    | some parent1, some parent2 =>
      match crossover k fresh fresh parent1 parent2 with
      | none => none
      | some (child1, child2) =>
        match (if (draws k).mutate1 then mutation (2 * k) child1 else some child1),
              (if (draws k).mutate2 then mutation (2 * k + 1) child2 else some child2) with
        | some child1, some child2 => some (put child1, put child2)
        | _, _ => none
    | _, _ => none

/-! ## Selection with the rounding of `float` -/

/-- `SelectParents` (lines 108-122) with the function that computes the biased scores
`n_fitness` as an argument: `SelectParentsWith FitnessFunc` is `SelectParents`, and
`SelectParentsWith FitnessFunc32` computes the scores as the source does, in `float`. -/
def SelectParentsWith (biased : ℚ → Int → ℚ) (generation : List (Image β))
    (picks : Nat → ℚ) (nSelect nBest : Nat) (iter : Int) :
    Option (List (Image β) × Image β) :=
  let n_fitness := generation.map (fun g => biased g.fitness iter)
  match allSome ((List.range nSelect).map
      (fun i => generation[WeightedRandomChoice n_fitness (picks i)]?)) with
  | none => none
  | some selected =>
    let bestIndexes := SortIndexes n_fitness
    match allSome ((List.range nBest).map
        (fun i => match bestIndexes[i]? with
          | some b => generation[b]?
          | none => none)) with
    | none => none
    | some elite =>
      let parents := selected ++ elite
      match parents[nSelect + nBest - 1]? with
      | some best => some (parents, best)
      | none => none

/-! ## Lemmas on vectors -/

theorem reverseRange_eq {α : Type} (v : List α) (first last : Nat) (h1 : first ≤ last)
    (h2 : last ≤ v.length) :
    reverseRange v first last =
      some (v.take first ++ ((v.drop first).take (last - first)).reverse ++ v.drop last) := by
  simp [reverseRange, h1, h2]

theorem reverseRange_split {α : Type} (v : List α) (first last : Nat) (h1 : first ≤ last) :
    v.take first ++ (v.drop first).take (last - first) ++ v.drop last = v := by
  have h : v.drop last = (v.drop first).drop (last - first) := by
    rw [List.drop_drop]; congr 1; omega
  rw [h, List.append_assoc, List.take_append_drop, List.take_append_drop]

theorem reverseRange_perm {α : Type} (v : List α) (first last : Nat) (h1 : first ≤ last) :
    List.Perm (v.take first ++ ((v.drop first).take (last - first)).reverse ++ v.drop last) v := by
  have h := reverseRange_split v first last h1
  conv_rhs => rw [← h]
  exact List.Perm.append_right _ (List.Perm.append_left _ (List.reverse_perm _))

theorem cons_set_perm {α : Type} (t : List α) (b : Nat) (y h : α) (hb : t[b]? = some y) :
    List.Perm (y :: t.set b h) (h :: t) := by
  induction t generalizing b with
  | nil => simp at hb
  | cons c t ih =>
    cases b with
    | zero =>
      simp at hb
      subst hb
      simpa using List.Perm.swap h c t
    | succ b =>
      simp at hb
      have h1 : List.Perm (y :: c :: t.set b h) (c :: y :: t.set b h) := List.Perm.swap _ _ _
      have h2 : List.Perm (c :: y :: t.set b h) (c :: h :: t) := List.Perm.cons c (ih b hb)
      have h3 : List.Perm (c :: h :: t) (h :: c :: t) := List.Perm.swap _ _ _
      simpa using (h1.trans h2).trans h3

theorem swap_perm {α : Type} (l : List α) (a b : Nat) (x y : α) (ha : l[a]? = some x)
    (hb : l[b]? = some y) : List.Perm ((l.set a y).set b x) l := by
  induction l generalizing a b with
  | nil => simp at ha
  | cons c t ih =>
    cases a with
    | zero =>
      cases b with
      | zero =>
        simp at ha hb
        subst ha
        simp
      | succ b =>
        simp at ha hb
        subst ha
        simpa using cons_set_perm t b y c hb
    | succ a =>
      cases b with
      | zero =>
        simp at ha hb
        subst hb
        simpa using cons_set_perm t a x c ha
      | succ b =>
        simp at ha hb
        simpa using List.Perm.cons c (ih a b ha hb)


/-! ## Lemmas on selection -/

theorem weightedLoop_range (pick : ℚ) (l : List ℚ) (c : ℚ) (i r : Nat)
    (h : weightedLoop pick l c i = some r) : i ≤ r ∧ r < i + l.length := by
  induction l generalizing c i with
  | nil => simp [weightedLoop] at h
  | cons w rest ih =>
    by_cases hw : c + w > pick
    · simp [weightedLoop, hw] at h
      subst h
      simp
    · simp only [weightedLoop, hw, if_false] at h
      have := ih _ _ h
      simp only [List.length_cons]
      omega

theorem weightedRandomChoice_lt (l : List ℚ) (pick : ℚ) (hl : 0 < l.length) :
    WeightedRandomChoice l pick < l.length := by
  unfold WeightedRandomChoice
  cases h : weightedLoop pick l 0 0 with
  | none => simpa using hl
  | some r =>
    have := weightedLoop_range pick l 0 0 r h
    simp only
    omega


theorem allSome_map_some {α γ : Type} (l : List γ) (f : γ → Option α) (g : γ → α)
    (h : ∀ x ∈ l, f x = some (g x)) : allSome (l.map f) = some (l.map g) := by
  induction l with
  | nil => simp [allSome]
  | cons a t ih =>
    have ha := h a (List.mem_cons_self a t)
    have ht := ih (fun x hx => h x (List.mem_cons_of_mem a hx))
    simp [allSome, ha, ht]

theorem sortIndexes_perm (v : List ℚ) : List.Perm (SortIndexes v) (List.range v.length) :=
  List.perm_insertionSort _ _

theorem sortIndexes_length (v : List ℚ) : (SortIndexes v).length = v.length := by
  simpa using (sortIndexes_perm v).length_eq

theorem sortIndexes_getD_lt (v : List ℚ) (i : Nat) (hi : i < v.length) :
    (SortIndexes v).getD i 0 < v.length := by
  have hi2 : i < (SortIndexes v).length := by rw [sortIndexes_length]; exact hi
  have hmem : (SortIndexes v)[i] ∈ SortIndexes v := List.getElem_mem hi2
  have := (sortIndexes_perm v).mem_iff.mp hmem
  rw [List.getD_eq_getElem _ _ hi2]
  simpa using this

theorem selectParentsWith_eq (biased : ℚ → Int → ℚ) (generation : List (Image β))
    (g0 : Image β) (picks : Nat → ℚ)
    (nSelect nBest : Nat) (iter : Int) (h1 : 1 ≤ nBest) (h2 : nBest ≤ generation.length) :
    SelectParentsWith biased generation picks nSelect nBest iter =
      some ((List.range nSelect).map (fun i => generation.getD (WeightedRandomChoice
              (generation.map (fun g => biased g.fitness iter)) (picks i)) g0) ++
            (List.range nBest).map (fun i => generation.getD ((SortIndexes
              (generation.map (fun g => biased g.fitness iter))).getD i 0) g0),
        generation.getD ((SortIndexes
              (generation.map (fun g => biased g.fitness iter))).getD (nBest - 1) 0) g0) := by
  have hsel : ∀ i ∈ List.range nSelect,
      generation[WeightedRandomChoice (generation.map (fun g => biased g.fitness iter))
        (picks i)]? = some (generation.getD (WeightedRandomChoice
              (generation.map (fun g => biased g.fitness iter)) (picks i)) g0) := by
    intro i _
    have hlt := weightedRandomChoice_lt (generation.map (fun g => biased g.fitness iter))
      (picks i) (by simp; omega)
    simp only [List.length_map] at hlt
    rw [List.getElem?_eq_getElem hlt, List.getD_eq_getElem _ _ hlt]
  have hel : ∀ i ∈ List.range nBest,
      (match (SortIndexes (generation.map (fun g => biased g.fitness iter)))[i]? with
        | some b => generation[b]?
        | none => none) = some (generation.getD ((SortIndexes
              (generation.map (fun g => biased g.fitness iter))).getD i 0) g0) := by
    intro i hi
    have hi1 : i < nBest := List.mem_range.mp hi
    have hlen := sortIndexes_length (generation.map (fun g => biased g.fitness iter))
    simp only [List.length_map] at hlen
    have hb := sortIndexes_getD_lt (generation.map (fun g => biased g.fitness iter)) i
      (by simp; omega)
    simp only [List.length_map] at hb
    have hi2 : i < (SortIndexes (generation.map (fun g => biased g.fitness iter))).length := by
      omega
    rw [List.getElem?_eq_getElem hi2]
    simp only
    rw [List.getD_eq_getElem _ 0 hi2] at hb ⊢
    rw [List.getElem?_eq_getElem hb, List.getD_eq_getElem _ _ hb]
  unfold SelectParentsWith
  simp only
  rw [allSome_map_some _ _ _ hsel, allSome_map_some _ _ _ hel]
  simp only
  have hidx : nSelect + nBest - 1 = nSelect + (nBest - 1) := by omega
  rw [hidx, List.getElem?_append_right (by simp)]
  simp only [List.length_map, List.length_range, Nat.add_sub_cancel_left]
  rw [List.getElem?_map, List.getElem?_range (by omega)]
  simp

theorem selectParents_eq (generation : List (Image β)) (g0 : Image β) (picks : Nat → ℚ)
    (nSelect nBest : Nat) (iter : Int) (h1 : 1 ≤ nBest) (h2 : nBest ≤ generation.length) :
    SelectParents generation picks nSelect nBest iter =
      some ((List.range nSelect).map (fun i => generation.getD (WeightedRandomChoice
              (generation.map (fun g => FitnessFunc g.fitness iter)) (picks i)) g0) ++
            (List.range nBest).map (fun i => generation.getD ((SortIndexes
              (generation.map (fun g => FitnessFunc g.fitness iter))).getD i 0) g0),
        generation.getD ((SortIndexes
              (generation.map (fun g => FitnessFunc g.fitness iter))).getD (nBest - 1) 0) g0) :=
  selectParentsWith_eq FitnessFunc generation g0 picks nSelect nBest iter h1 h2


/-! ## Lemmas on `Order1Crossover` -/

theorem assignLoop_succ {α : Type} (n dstOff srcOff : Nat) (src dst : List α) :
    assignLoop (n + 1) dstOff srcOff src dst =
      match assignLoop n dstOff srcOff src dst with
      | some d =>
        match src[n + srcOff]? with
        | some x => if n + dstOff < d.length then some (d.set (n + dstOff) x) else none
        | none => none
      | none => none := by
  unfold assignLoop
  rw [List.range_succ, List.foldlM_append]
  cases h : List.foldlM (fun d i =>
      match src[i + srcOff]? with
      | some x => if i + dstOff < d.length then some (d.set (i + dstOff) x) else none
      | none => none) dst (List.range n) with
  | none => rfl
  | some d =>
    simp only [Option.bind_eq_bind, Option.some_bind, List.foldlM_cons, List.foldlM_nil]
    cases src[n + srcOff]? with
    | none => rfl
    | some x =>
      by_cases hlt : n + dstOff < d.length
      · simp [hlt]
      · simp [hlt]

theorem assignLoop_spec {α : Type} (n dstOff srcOff : Nat) (src dst : List α)
    (hsrc : srcOff + n ≤ src.length) (hdst : dstOff + n ≤ dst.length) :
    ∃ r, assignLoop n dstOff srcOff src dst = some r ∧ r.length = dst.length ∧
      ∀ j, r[j]? = if dstOff ≤ j ∧ j < dstOff + n then src[j - dstOff + srcOff]? else dst[j]? := by
  induction n with
  | zero =>
    refine ⟨dst, by simp [assignLoop], rfl, ?_⟩
    intro j
    rw [if_neg (by omega)]
  | succ n ih =>
    obtain ⟨r, hr, hlen, hget⟩ := ih (by omega) (by omega)
    have hs : n + srcOff < src.length := by omega
    refine ⟨r.set (n + dstOff) src[n + srcOff], ?_, by simpa using hlen, ?_⟩
    · rw [assignLoop_succ, hr]
      simp only [List.getElem?_eq_getElem hs]
      rw [if_pos (by omega)]
    · intro j
      rw [List.getElem?_set]
      by_cases hj : n + dstOff = j
      · subst hj
        rw [if_pos rfl, if_pos (by omega), if_pos (by omega)]
        rw [show n + dstOff - dstOff + srcOff = n + srcOff by omega]
        exact (List.getElem?_eq_getElem hs).symm
      · rw [if_neg hj, hget j]
        by_cases hc : dstOff ≤ j ∧ j < dstOff + n
        · rw [if_pos hc, if_pos (by omega)]
        · rw [if_neg hc, if_neg (by omega)]

theorem removeDuplicates_eq_filter (images toRemove : List (Tile β)) :
    RemoveDuplicates images toRemove =
      images.filter (fun it => decide (it.1 ∉ toRemove.map Prod.fst)) := by
  unfold RemoveDuplicates
  induction toRemove generalizing images with
  | nil => simp
  | cons r t ih =>
    rw [List.foldl_cons, ih, List.filter_filter]
    congr 1
    funext it
    by_cases h1 : r.1 = it.1
    · simp [h1]
    · have h2 : ¬ it.1 = r.1 := fun h => h1 h.symm
      simp [h1, h2]

theorem removeDuplicates_ids (images toRemove : List (Tile β)) :
    (RemoveDuplicates images toRemove).map Prod.fst =
      (images.map Prod.fst).filter (fun x => decide (x ∉ toRemove.map Prod.fst)) := by
  rw [removeDuplicates_eq_filter, List.filter_map]
  rfl

theorem sortImages_perm (toSort : List (Tile β)) : List.Perm (SortImages toSort) toSort :=
  List.perm_insertionSort _ _

theorem sortImages_sorted (toSort : List (Tile β)) :
    List.Sorted (fun lhs rhs => lhs.1 ≤ rhs.1) (SortImages toSort) := by
  have h : List.Sorted (fun (lhs rhs : Tile β) => ¬ (rhs.1 < lhs.1)) (SortImages toSort) := by
    haveI : IsTotal (Tile β) (fun lhs rhs => ¬ (rhs.1 < lhs.1)) :=
      ⟨fun a b => by
        by_cases h : b.1 < a.1
        · right
          exact not_lt.mpr (le_of_lt h)
        · left
          exact h⟩
    haveI : IsTrans (Tile β) (fun lhs rhs => ¬ (rhs.1 < lhs.1)) :=
      ⟨fun a b c hab hbc => not_lt.mpr (le_trans (not_lt.mp hab) (not_lt.mp hbc))⟩
    exact List.sorted_insertionSort _ _
  exact h.imp (fun hab => not_lt.mp hab)


theorem removeDuplicates_ids_perm (l1 l2 : List (Tile β)) (len : Nat)
    (hperm : List.Perm (l2.map Prod.fst) (l1.map Prod.fst)) (hnd : (l1.map Prod.fst).Nodup) :
    List.Perm ((RemoveDuplicates l2 (l1.take len)).map Prod.fst)
      ((l1.drop len).map Prod.fst) := by
  rw [removeDuplicates_ids]
  have hnd2 : (l2.map Prod.fst).Nodup := hperm.nodup_iff.mpr hnd
  have hsplit : l1.map Prod.fst = (l1.take len).map Prod.fst ++ (l1.drop len).map Prod.fst := by
    rw [← List.map_append, List.take_append_drop]
  have hnd3 : ((l1.take len).map Prod.fst ++ (l1.drop len).map Prod.fst).Nodup := by
    rw [← hsplit]; exact hnd
  have hdisj := List.disjoint_of_nodup_append hnd3
  refine (List.perm_ext_iff_of_nodup (hnd2.filter _) (List.Nodup.of_append_right hnd3)).mpr ?_
  intro a
  rw [List.mem_filter, decide_eq_true_iff, hperm.mem_iff, hsplit, List.mem_append]
  constructor
  · rintro ⟨h1 | h1, h2⟩
    · exact absurd h1 h2
    · exact h1
  · intro h
    exact ⟨Or.inr h, fun h2 => hdisj h2 h⟩

theorem assignLoop_take {α : Type} (len : Nat) (src dst : List α) (hsrc : len ≤ src.length)
    (hdst : dst.length = len) : assignLoop len 0 0 src dst = some (src.take len) := by
  obtain ⟨r, hr, hlen, hget⟩ := assignLoop_spec len 0 0 src dst (by omega) (by omega)
  rw [hr]
  congr 1
  apply List.ext_getElem?
  intro j
  rw [hget j]
  by_cases hj : j < len
  · rw [if_pos (by omega), List.getElem?_take_of_lt hj]
    rfl
  · rw [if_neg (by omega)]
    rw [List.getElem?_eq_none (by omega), List.getElem?_eq_none (by simp; omega)]

/-- The vector `parent2Images` of `Order1Crossover` after `RemoveDuplicates` and
`SortImages`, for a copied block of `len` entries. -/
theorem order1_rest_length (l1 l2 : List (Tile β)) (len n : Nat)
    (h1 : List.Perm (l1.map Prod.fst) (List.range n))
    (h2 : List.Perm (l2.map Prod.fst) (List.range n)) :
    (SortImages (RemoveDuplicates l2 (l1.take len))).length = n - len := by
  have hp := removeDuplicates_ids_perm l1 l2 len (h2.trans h1.symm)
    (h1.nodup_iff.mpr (List.nodup_range n))
  have hl := ((sortImages_perm (RemoveDuplicates l2 (l1.take len))).map Prod.fst).trans hp
  have hlen := hl.length_eq
  have hl1 := h1.length_eq
  simp only [List.length_map, List.length_drop, List.length_range] at hlen hl1
  omega

theorem order1_eq [Inhabited β] (n c1 c2 : Nat) (child child2 parent1 parent2 : Image β)
    (hp1 : parent1.IsPermutation n) (hp2 : parent2.IsPermutation n)
    (h1 : c1 < n) (h2 : c2 < n) :
    Order1Crossover n c1 c2 child child2 parent1 parent2 =
      some ({ child with images :=
          (SortImages (RemoveDuplicates parent2.images
            (parent1.images.take (max c1 c2 - min c1 c2 + 1)))).take (min c1 c2) ++
          parent1.images.take (max c1 c2 - min c1 c2 + 1) ++
          (SortImages (RemoveDuplicates parent2.images
            (parent1.images.take (max c1 c2 - min c1 c2 + 1)))).drop (min c1 c2) },
        child2) := by
  have hlohi : min c1 c2 ≤ max c1 c2 := le_trans (min_le_left c1 c2) (le_max_left c1 c2)
  have hhi : max c1 c2 < n := max_lt h1 h2
  have hl1 : parent1.images.length = n := by
    simpa [Image.ids] using hp1.length_eq
  have hA := order1_rest_length parent1.images parent2.images (max c1 c2 - min c1 c2 + 1) n
    hp1 hp2
  generalize hlo : min c1 c2 = lo at *
  generalize hhi' : max c1 c2 = hi at *
  unfold Order1Crossover
  simp only [hlo, hhi']
  obtain ⟨i1, hi1, hi1len, hi1get⟩ := assignLoop_spec (hi - lo + 1) lo 0 parent1.images
    (List.replicate n ((0, default) : Tile β)) (by omega) (by simp; omega)
  rw [hi1, assignLoop_take (hi - lo + 1) parent1.images _ (by omega) (by simp)]
  simp only
  generalize hAdef : SortImages (RemoveDuplicates parent2.images
    (parent1.images.take (hi - lo + 1))) = A at *
  obtain ⟨i3, hi3, hi3len, hi3get⟩ := assignLoop_spec lo 0 0 A i1 (by omega)
    (by rw [hi1len]; simp; omega)
  rw [hi3]
  simp only
  rw [if_neg (by omega)]
  obtain ⟨i4, hi4, hi4len, hi4get⟩ := assignLoop_spec (A.length - lo) (hi + 1) lo A i3
    (by omega) (by rw [hi3len, hi1len]; simp; omega)
  rw [hi4]
  simp only
  congr 3
  apply List.ext_getElem?
  intro j
  rw [hi4get j, hi3get, hi1get]
  simp only [List.length_replicate] at hi1len
  by_cases hj1 : j < lo
  · rw [if_neg (by omega), if_pos (by omega), List.append_assoc,
      List.getElem?_append_left (by simp; omega), List.getElem?_take_of_lt hj1]
    rfl
  · by_cases hj2 : j ≤ hi
    · rw [if_neg (by omega), if_neg (by omega), if_pos (by omega), List.append_assoc,
        List.getElem?_append_right (by simp; omega),
        List.getElem?_append_left (by simp; omega)]
      simp only [List.length_take]
      rw [List.getElem?_take_of_lt (by omega)]
      congr 1
      omega
    · by_cases hj3 : j < n
      · rw [if_pos (by omega), List.getElem?_append_right (by simp; omega)]
        simp only [List.length_append, List.length_take, List.getElem?_drop]
        congr 1
        omega
      · rw [if_neg (by omega), if_neg (by omega), if_neg (by omega),
          List.getElem?_eq_none (by simp; omega), List.getElem?_eq_none (by simp; omega)]


theorem order1_ids [Inhabited β] (n c1 c2 : Nat) (child child2 parent1 parent2 : Image β)
    (hp1 : parent1.IsPermutation n) (hp2 : parent2.IsPermutation n)
    (h1 : c1 < n) (h2 : c2 < n) :
    ∃ c X, Order1Crossover n c1 c2 child child2 parent1 parent2 = some (c, child2) ∧
      c.ids = X.take (min c1 c2) ++ parent1.ids.take (max c1 c2 - min c1 c2 + 1) ++
        X.drop (min c1 c2) ∧
      X.length = n - (max c1 c2 - min c1 c2 + 1) ∧
      List.Sorted (· < ·) X ∧
      List.Perm X (parent2.ids.filter
        (fun x => decide (x ∉ parent1.ids.take (max c1 c2 - min c1 c2 + 1)))) := by
  have hperm : List.Perm ((SortImages (RemoveDuplicates parent2.images
      (parent1.images.take (max c1 c2 - min c1 c2 + 1)))).map Prod.fst)
      (parent2.ids.filter
        (fun x => decide (x ∉ parent1.ids.take (max c1 c2 - min c1 c2 + 1)))) := by
    have h := (sortImages_perm (RemoveDuplicates parent2.images
      (parent1.images.take (max c1 c2 - min c1 c2 + 1)))).map Prod.fst
    rw [removeDuplicates_ids] at h
    simpa [Image.ids, List.map_take] using h
  have hnd2 : parent2.ids.Nodup := hp2.nodup_iff.mpr (List.nodup_range n)
  refine ⟨_, (SortImages (RemoveDuplicates parent2.images
      (parent1.images.take (max c1 c2 - min c1 c2 + 1)))).map Prod.fst,
    order1_eq n c1 c2 child child2 parent1 parent2 hp1 hp2 h1 h2, ?_, ?_, ?_, hperm⟩
  · simp [Image.ids, List.map_take, List.map_drop]
  · rw [List.length_map]
    exact order1_rest_length parent1.images parent2.images _ n hp1 hp2
  · have hs := sortImages_sorted (RemoveDuplicates parent2.images
      (parent1.images.take (max c1 c2 - min c1 c2 + 1)))
    have hle : List.Sorted (· ≤ ·) ((SortImages (RemoveDuplicates parent2.images
        (parent1.images.take (max c1 c2 - min c1 c2 + 1)))).map Prod.fst) := by
      unfold List.Sorted
      rw [List.pairwise_map]
      exact hs
    exact hle.lt_of_le (hperm.nodup_iff.mpr (hnd2.filter _))


/-! ## Lemmas on `CycleCrossover` -/

theorem perm_range_length (p : List Nat) (n : Nat) (hp : List.Perm p (List.range n)) :
    p.length = n := by
  simpa using hp.length_eq

theorem perm_range_of_nodup (l : List Nat) (n : Nat) (hnd : l.Nodup)
    (hlt : ∀ x ∈ l, x < n) (hlen : l.length = n) : List.Perm l (List.range n) := by
  have hsub : l ⊆ List.range n := fun x hx => List.mem_range.mpr (hlt x hx)
  exact (List.subperm_of_subset hnd hsub).perm_of_length_le (by simp [hlen])

theorem cycleStep_lt (p1 p2 : List Nat) (n : Nat) (hp1 : List.Perm p1 (List.range n))
    (hp2 : List.Perm p2 (List.range n)) (i : Nat) (hi : i < n) : cycleStep p1 p2 i < n := by
  have hl1 := perm_range_length p1 n hp1
  have hl2 := perm_range_length p2 n hp2
  unfold cycleStep
  rw [List.getD_eq_getElem _ _ (by omega : i < p1.length)]
  have hmem : p1[i] ∈ p2 := hp2.mem_iff.mpr (hp1.mem_iff.mp (List.getElem_mem _))
  have := List.indexOf_lt_length.mpr hmem
  omega

theorem cycleStep_get (p1 p2 : List Nat) (n : Nat) (hp1 : List.Perm p1 (List.range n))
    (hp2 : List.Perm p2 (List.range n)) (i : Nat) (hi : i < n) :
    p2[cycleStep p1 p2 i]? = p1[i]? := by
  have hl1 := perm_range_length p1 n hp1
  have hl2 := perm_range_length p2 n hp2
  have hlt := cycleStep_lt p1 p2 n hp1 hp2 i hi
  rw [List.getElem?_eq_getElem (by omega : cycleStep p1 p2 i < p2.length),
    List.getElem?_eq_getElem (by omega : i < p1.length)]
  congr 1
  have h := List.getElem_indexOf (a := p1.getD i 0) (l := p2) (by
    have := hlt
    unfold cycleStep at this
    omega)
  exact h.trans (List.getD_eq_getElem _ _ (by omega : i < p1.length))

theorem getElem?_inj_of_nodup (p : List Nat) (hnd : p.Nodup) (i j : Nat) (hi : i < p.length)
    (h : p[i]? = p[j]?) : i = j := by
  rcases Nat.lt_trichotomy i j with hlt | heq | hgt
  · by_cases hj : j < p.length
    · exact absurd h (List.nodup_iff_getElem?_ne_getElem?.mp hnd i j hlt hj)
    · rw [List.getElem?_eq_getElem hi, List.getElem?_eq_none (by omega)] at h
      simp at h
  · exact heq
  · exact absurd h.symm (List.nodup_iff_getElem?_ne_getElem?.mp hnd j i hgt hi)

theorem cycleStep_inj (p1 p2 : List Nat) (n : Nat) (hp1 : List.Perm p1 (List.range n))
    (hp2 : List.Perm p2 (List.range n)) (i j : Nat) (hi : i < n) (hj : j < n)
    (h : cycleStep p1 p2 i = cycleStep p1 p2 j) : i = j := by
  have hl1 := perm_range_length p1 n hp1
  have hnd1 : p1.Nodup := hp1.nodup_iff.mpr (List.nodup_range n)
  have e1 := cycleStep_get p1 p2 n hp1 hp2 i hi
  have e2 := cycleStep_get p1 p2 n hp1 hp2 j hj
  rw [h] at e1
  exact getElem?_inj_of_nodup p1 hnd1 i j (by omega) (e1.symm.trans e2)

theorem cycleStep_iterate_lt (p1 p2 : List Nat) (n : Nat) (hp1 : List.Perm p1 (List.range n))
    (hp2 : List.Perm p2 (List.range n)) (hn : 0 < n) (t : Nat) :
    (cycleStep p1 p2)^[t] 0 < n := by
  induction t with
  | zero => simpa using hn
  | succ t ih =>
    rw [Function.iterate_succ_apply']
    exact cycleStep_lt p1 p2 n hp1 hp2 _ ih

theorem cycleStep_iterate_cancel (p1 p2 : List Nat) (n : Nat)
    (hp1 : List.Perm p1 (List.range n)) (hp2 : List.Perm p2 (List.range n)) (hn : 0 < n)
    (a d : Nat) (h : (cycleStep p1 p2)^[a + d] 0 = (cycleStep p1 p2)^[a] 0) :
    (cycleStep p1 p2)^[d] 0 = 0 := by
  induction a with
  | zero => simpa using h
  | succ a ih =>
    apply ih
    rw [show a + 1 + d = (a + d) + 1 by omega, Function.iterate_succ_apply',
      Function.iterate_succ_apply'] at h
    exact cycleStep_inj p1 p2 n hp1 hp2 _ _ (cycleStep_iterate_lt p1 p2 n hp1 hp2 hn _)
      (cycleStep_iterate_lt p1 p2 n hp1 hp2 hn _) h

/-- The orbit of position `0` closes after at most `n` steps, and `k` is the first
positive step at which it does. -/
theorem cycleStep_period (p1 p2 : List Nat) (n : Nat) (hp1 : List.Perm p1 (List.range n))
    (hp2 : List.Perm p2 (List.range n)) (hn : 0 < n) :
    ∃ k, 0 < k ∧ k ≤ n ∧ (cycleStep p1 p2)^[k] 0 = 0 ∧
      ∀ t, 0 < t → t < k → (cycleStep p1 p2)^[t] 0 ≠ 0 := by
  have hex : ∃ d, 0 < d ∧ d ≤ n ∧ (cycleStep p1 p2)^[d] 0 = 0 := by
    obtain ⟨x, hx, y, hy, hxy, hfxy⟩ :=
      Finset.exists_ne_map_eq_of_card_lt_of_maps_to
        (s := Finset.range (n + 1)) (t := Finset.range n)
        (f := fun t => (cycleStep p1 p2)^[t] 0) (by simp)
        (fun t _ => Finset.mem_range.mpr (cycleStep_iterate_lt p1 p2 n hp1 hp2 hn t))
    have hx1 := Finset.mem_range.mp hx
    have hy1 := Finset.mem_range.mp hy
    have hfxy : (cycleStep p1 p2)^[x] 0 = (cycleStep p1 p2)^[y] 0 := hfxy
    rcases Nat.lt_or_gt_of_ne hxy with hlt | hgt
    · refine ⟨y - x, by omega, by omega, ?_⟩
      apply cycleStep_iterate_cancel p1 p2 n hp1 hp2 hn x (y - x)
      rw [show x + (y - x) = y by omega]
      exact hfxy.symm
    · refine ⟨x - y, by omega, by omega, ?_⟩
      apply cycleStep_iterate_cancel p1 p2 n hp1 hp2 hn y (x - y)
      rw [show y + (x - y) = x by omega]
      exact hfxy
  classical
  have hex2 : ∃ d, 0 < d ∧ (cycleStep p1 p2)^[d] 0 = 0 := by
    obtain ⟨d, hd1, _, hd3⟩ := hex
    exact ⟨d, hd1, hd3⟩
  refine ⟨Nat.find hex2, (Nat.find_spec hex2).1, ?_, (Nat.find_spec hex2).2, ?_⟩
  · obtain ⟨d, hd1, hd2, hd3⟩ := hex
    exact le_trans (Nat.find_min' hex2 ⟨hd1, hd3⟩) hd2
  · intro t ht0 htk h0
    exact Nat.find_min hex2 htk ⟨ht0, h0⟩


theorem find_unroll (p1 p2 : List Nat) (n : Nat) (hp1 : List.Perm p1 (List.range n))
    (hp2 : List.Perm p2 (List.range n)) (hn : 0 < n) (k : Nat)
    (hkper : (cycleStep p1 p2)^[k] 0 = 0)
    (hkmin : ∀ t, 0 < t → t < k → (cycleStep p1 p2)^[t] 0 ≠ 0)
    (fuel m : Nat) (acc : List Nat) (hm : m < k) (hfuel : k - m ≤ fuel) :
    find p1 p2 0 fuel (p1.getD ((cycleStep p1 p2)^[m] 0) 0) acc =
      some (acc ++ (List.range' (m + 1) (k - m)).map (fun t => (cycleStep p1 p2)^[t] 0)) := by
  have hl1 := perm_range_length p1 n hp1
  have hl2 := perm_range_length p2 n hp2
  have hnd1 : p1.Nodup := hp1.nodup_iff.mpr (List.nodup_range n)
  induction fuel generalizing m acc with
  | zero => omega
  | succ fuel ih =>
    have hj : p2.indexOf (p1.getD ((cycleStep p1 p2)^[m] 0) 0) =
        (cycleStep p1 p2)^[m + 1] 0 := by
      rw [Function.iterate_succ_apply']
      rfl
    have hjlt : (cycleStep p1 p2)^[m + 1] 0 < p1.length := by
      rw [hl1]; exact cycleStep_iterate_lt p1 p2 n hp1 hp2 hn _
    have h0lt : 0 < p1.length := by omega
    rw [find]
    rw [hj, List.getElem?_eq_getElem hjlt, List.getElem?_eq_getElem h0lt]
    dsimp only
    by_cases hz : (cycleStep p1 p2)^[m + 1] 0 = 0
    · have hmk : m + 1 = k := by
        by_contra hne
        exact hkmin (m + 1) (by omega) (by omega) hz
      have hval : p1[(cycleStep p1 p2)^[m + 1] 0] = p1[0] := by
        simp only [hz]
      rw [if_pos hval]
      have hkm : k - m = 1 := by omega
      rw [hkm]
      simp
    · have hmk : m + 1 < k := by
        rcases Nat.lt_or_ge (m + 1) k with h | h
        · exact h
        · have : m + 1 = k := by omega
          rw [this] at hz
          exact absurd hkper hz
      have hval : ¬ p1[(cycleStep p1 p2)^[m + 1] 0] = p1[0] := by
        intro h
        exact hz ((hnd1.getElem_inj_iff).mp h)
      rw [if_neg hval, if_pos (by omega)]
      have hcur : p1[(cycleStep p1 p2)^[m + 1] 0] =
          p1.getD ((cycleStep p1 p2)^[m + 1] 0) 0 := (List.getD_eq_getElem _ _ hjlt).symm
      rw [hcur, ih (m + 1) _ hmk (by omega)]
      have hkm : k - m = (k - (m + 1)) + 1 := by omega
      rw [hkm, List.range'_succ]
      simp

theorem find_spec (p1 p2 : List Nat) (n : Nat) (hp1 : List.Perm p1 (List.range n))
    (hp2 : List.Perm p2 (List.range n)) (hn : 0 < n) (fuel : Nat) (hfuel : n ≤ fuel)
    (start : Nat) (hstart : p1[0]? = some start) :
    ∃ l k, find p1 p2 0 fuel start [] = some l ∧ 0 < k ∧ k ≤ n ∧
      l = (List.range' 1 k).map (fun t => (cycleStep p1 p2)^[t] 0) ∧
      (cycleStep p1 p2)^[k] 0 = 0 ∧
      (∀ t, 0 < t → t < k → (cycleStep p1 p2)^[t] 0 ≠ 0) ∧
      (∀ i, i ∈ l ↔ InOrbit p1 p2 i) ∧ (∀ i ∈ l, i < n) := by
  obtain ⟨k, hk0, hkn, hkper, hkmin⟩ := cycleStep_period p1 p2 n hp1 hp2 hn
  have hl1 := perm_range_length p1 n hp1
  have hs : start = p1.getD ((cycleStep p1 p2)^[0] 0) 0 := by
    rw [List.getElem?_eq_getElem (by omega : 0 < p1.length)] at hstart
    rw [Function.iterate_zero, id, List.getD_eq_getElem _ _ (by omega : 0 < p1.length)]
    exact (Option.some.inj hstart).symm
  have hfind := find_unroll p1 p2 n hp1 hp2 hn k hkper hkmin fuel 0 [] hk0 (by omega)
  rw [← hs] at hfind
  simp only [Nat.zero_add, Nat.sub_zero, List.nil_append] at hfind
  refine ⟨_, k, hfind, hk0, hkn, rfl, hkper, hkmin, ?_, ?_⟩
  · intro i
    constructor
    · intro hi
      obtain ⟨t, _, rfl⟩ := List.mem_map.mp hi
      exact ⟨t, rfl⟩
    · rintro ⟨t, rfl⟩
      have hmod : (cycleStep p1 p2)^[t % k] 0 = (cycleStep p1 p2)^[t] 0 :=
        Function.IsPeriodicPt.iterate_mod_apply (f := cycleStep p1 p2) (n := k) hkper t
      rw [← hmod]
      by_cases h0 : t % k = 0
      · rw [h0, Function.iterate_zero, id]
        exact List.mem_map.mpr ⟨k, List.mem_range'_1.mpr ⟨by omega, by omega⟩, hkper⟩
      · have := Nat.mod_lt t hk0
        exact List.mem_map.mpr ⟨t % k, List.mem_range'_1.mpr ⟨by omega, by omega⟩, rfl⟩
  · intro i hi
    obtain ⟨t, _, rfl⟩ := List.mem_map.mp hi
    exact cycleStep_iterate_lt p1 p2 n hp1 hp2 hn t

theorem setLoop_spec {α : Type} (src : List α) (positions : List Nat) (dst : List α)
    (hsrc : ∀ p ∈ positions, p < src.length) (hdst : ∀ p ∈ positions, p < dst.length) :
    ∃ r, setLoop src positions dst = some r ∧ r.length = dst.length ∧
      (∀ j, j ∈ positions → r[j]? = src[j]?) ∧ (∀ j, j ∉ positions → r[j]? = dst[j]?) := by
  induction positions generalizing dst with
  | nil => exact ⟨dst, rfl, rfl, by simp, by simp⟩
  | cons p rest ih =>
    have hp1 : p < src.length := hsrc p (List.mem_cons_self p rest)
    have hp2 : p < dst.length := hdst p (List.mem_cons_self p rest)
    obtain ⟨r, hr, hlen, hin, hout⟩ := ih (dst.set p src[p])
      (fun q hq => hsrc q (List.mem_cons_of_mem p hq))
      (fun q hq => by simpa using hdst q (List.mem_cons_of_mem p hq))
    refine ⟨r, ?_, by simpa using hlen, ?_, ?_⟩
    · unfold setLoop at hr ⊢
      rw [List.foldlM_cons, List.getElem?_eq_getElem hp1]
      simp only [if_pos hp2]
      exact hr
    · intro j hj
      by_cases hjr : j ∈ rest
      · exact hin j hjr
      · have hjp : j = p := by
          rcases List.mem_cons.mp hj with h | h
          · exact h
          · exact absurd h hjr
        subst hjp
        rw [hout j hjr, List.getElem?_set, if_pos rfl, if_pos hp2,
          List.getElem?_eq_getElem hp1]
    · intro j hj
      have hjp : p ≠ j := fun h => hj (h ▸ List.mem_cons_self p rest)
      have hjr : j ∉ rest := fun h => hj (List.mem_cons_of_mem p h)
      rw [hout j hjr, List.getElem?_set, if_neg hjp]


theorem firstIds_eq (n : Nat) (parent : Image β) (hp : parent.IsPermutation n) :
    firstIds n parent = some parent.ids := by
  have hlen : parent.images.length = n := by
    simpa [Image.ids] using hp.length_eq
  unfold firstIds
  rw [if_pos (by omega), List.take_of_length_le (by omega)]
  rfl

theorem cycleCrossover_spec (fuel n : Nat) (child1 child2 parent1 parent2 : Image β)
    (hp1 : parent1.IsPermutation n) (hp2 : parent2.IsPermutation n) (hn : 0 < n)
    (hfuel : n ≤ fuel) :
    ∃ c1 c2, CycleCrossover fuel n child1 child2 parent1 parent2 = some (c1, c2) ∧
      c1.images.length = n ∧ c2.images.length = n ∧
      (∀ j, InOrbit parent1.ids parent2.ids j → c1.images[j]? = parent1.images[j]?) ∧
      (∀ j, ¬ InOrbit parent1.ids parent2.ids j → c1.images[j]? = parent2.images[j]?) ∧
      (∀ j, InOrbit parent2.ids parent1.ids j → c2.images[j]? = parent2.images[j]?) ∧
      (∀ j, ¬ InOrbit parent2.ids parent1.ids j → c2.images[j]? = parent1.images[j]?) := by
  have hl1 : parent1.images.length = n := by simpa [Image.ids] using hp1.length_eq
  have hl2 : parent2.images.length = n := by simpa [Image.ids] using hp2.length_eq
  have hi1 : parent1.ids.length = n := perm_range_length _ n hp1
  have hi2 : parent2.ids.length = n := perm_range_length _ n hp2
  have hs1 : parent1.ids[0]? = some parent1.ids[0] := List.getElem?_eq_getElem (by omega)
  have hs2 : parent2.ids[0]? = some parent2.ids[0] := List.getElem?_eq_getElem (by omega)
  obtain ⟨l1, _, hf1, _, _, _, _, _, hmem1, hlt1⟩ :=
    find_spec parent1.ids parent2.ids n hp1 hp2 hn fuel hfuel _ hs1
  obtain ⟨l2, _, hf2, _, _, _, _, _, hmem2, hlt2⟩ :=
    find_spec parent2.ids parent1.ids n hp2 hp1 hn fuel hfuel _ hs2
  obtain ⟨r1, hr1, hr1len, hr1in, hr1out⟩ := setLoop_spec parent1.images l1 parent2.images
    (fun p hp => by have := hlt1 p hp; omega) (fun p hp => by have := hlt1 p hp; omega)
  obtain ⟨r2, hr2, hr2len, hr2in, hr2out⟩ := setLoop_spec parent2.images l2 parent1.images
    (fun p hp => by have := hlt2 p hp; omega) (fun p hp => by have := hlt2 p hp; omega)
  refine ⟨{ child1 with images := r1 }, { child2 with images := r2 }, ?_, by simpa [hl2] using hr1len,
    by simpa [hl1] using hr2len, ?_, ?_, ?_, ?_⟩
  · unfold CycleCrossover
    rw [firstIds_eq n parent1 hp1, firstIds_eq n parent2 hp2]
    dsimp only
    rw [hs1, hs2]
    dsimp only
    rw [hf1]
    dsimp only
    rw [hr1]
    dsimp only
    rw [hf2]
    dsimp only
    rw [hr2]
  · intro j hj
    exact hr1in j ((hmem1 j).mpr hj)
  · intro j hj
    exact hr1out j (fun h => hj ((hmem1 j).mp h))
  · intro j hj
    exact hr2in j ((hmem2 j).mpr hj)
  · intro j hj
    exact hr2out j (fun h => hj ((hmem2 j).mp h))

theorem inOrbit_step (p1 p2 : List Nat) (i : Nat) (h : InOrbit p1 p2 i) :
    InOrbit p1 p2 (cycleStep p1 p2 i) := by
  obtain ⟨t, rfl⟩ := h
  exact ⟨t + 1, Function.iterate_succ_apply' _ _ _⟩

/-- A sequence that agrees with `p1` on the orbit of position `0` and with `p2` off it is
a permutation of `0, ..., n-1`. -/
theorem orbit_mix_perm (p1 p2 l : List Nat) (n : Nat) (hp1 : List.Perm p1 (List.range n))
    (hp2 : List.Perm p2 (List.range n)) (hlen : l.length = n)
    (hin : ∀ j, InOrbit p1 p2 j → l[j]? = p1[j]?)
    (hout : ∀ j, ¬ InOrbit p1 p2 j → l[j]? = p2[j]?) : List.Perm l (List.range n) := by
  have hl1 := perm_range_length p1 n hp1
  have hl2 := perm_range_length p2 n hp2
  have hnd1 : p1.Nodup := hp1.nodup_iff.mpr (List.nodup_range n)
  have hnd2 : p2.Nodup := hp2.nodup_iff.mpr (List.nodup_range n)
  apply perm_range_of_nodup l n _ _ hlen
  · rw [List.nodup_iff_getElem?_ne_getElem?]
    intro i j hij hj heq
    have hi : i < n := by omega
    have hjn : j < n := by omega
    by_cases hci : InOrbit p1 p2 i
    · by_cases hcj : InOrbit p1 p2 j
      · rw [hin i hci, hin j hcj] at heq
        have := getElem?_inj_of_nodup p1 hnd1 i j (by omega) heq
        omega
      · rw [hin i hci, hout j hcj, ← cycleStep_get p1 p2 n hp1 hp2 i hi] at heq
        have hlt := cycleStep_lt p1 p2 n hp1 hp2 i hi
        have := getElem?_inj_of_nodup p2 hnd2 _ j (by omega) heq
        exact hcj (this ▸ inOrbit_step p1 p2 i hci)
    · by_cases hcj : InOrbit p1 p2 j
      · rw [hout i hci, hin j hcj, ← cycleStep_get p1 p2 n hp1 hp2 j hjn] at heq
        have hlt := cycleStep_lt p1 p2 n hp1 hp2 j hjn
        have := getElem?_inj_of_nodup p2 hnd2 i _ (by omega) heq
        exact hci (this ▸ inOrbit_step p1 p2 j hcj)
      · rw [hout i hci, hout j hcj] at heq
        have := getElem?_inj_of_nodup p2 hnd2 i j (by omega) heq
        omega
  · intro x hx
    obtain ⟨j, hj, rfl⟩ := List.mem_iff_getElem.mp hx
    have hjn : j < n := by omega
    by_cases hc : InOrbit p1 p2 j
    · have h := hin j hc
      rw [List.getElem?_eq_getElem hj, List.getElem?_eq_getElem (by omega : j < p1.length)] at h
      rw [Option.some.inj h]
      exact List.mem_range.mp (hp1.mem_iff.mp (List.getElem_mem _))
    · have h := hout j hc
      rw [List.getElem?_eq_getElem hj, List.getElem?_eq_getElem (by omega : j < p2.length)] at h
      rw [Option.some.inj h]
      exact List.mem_range.mp (hp2.mem_iff.mp (List.getElem_mem _))


/-! ## Lemmas on the two orbits of `CycleCrossover` -/

theorem cycleStep_left_inv (p1 p2 : List Nat) (n : Nat) (hp1 : List.Perm p1 (List.range n))
    (hp2 : List.Perm p2 (List.range n)) (i : Nat) (hi : i < n) :
    cycleStep p2 p1 (cycleStep p1 p2 i) = i := by
  have hl1 := perm_range_length p1 n hp1
  have hl2 := perm_range_length p2 n hp2
  have hnd1 : p1.Nodup := hp1.nodup_iff.mpr (List.nodup_range n)
  have hlt := cycleStep_lt p1 p2 n hp1 hp2 i hi
  have hget := cycleStep_get p1 p2 n hp1 hp2 i hi
  rw [List.getElem?_eq_getElem (by omega : cycleStep p1 p2 i < p2.length),
    List.getElem?_eq_getElem (by omega : i < p1.length)] at hget
  have hval : p2.getD (cycleStep p1 p2 i) 0 = p1[i] := by
    rw [List.getD_eq_getElem _ _ (by omega : cycleStep p1 p2 i < p2.length)]
    exact Option.some.inj hget
  show p1.indexOf (p2.getD (cycleStep p1 p2 i) 0) = i
  rw [hval]
  exact List.indexOf_getElem hnd1 i (by omega)

theorem cycleStep_iterate_lt_of_lt (p1 p2 : List Nat) (n : Nat)
    (hp1 : List.Perm p1 (List.range n)) (hp2 : List.Perm p2 (List.range n)) (x : Nat)
    (hx : x < n) (t : Nat) : (cycleStep p1 p2)^[t] x < n := by
  induction t with
  | zero => simpa using hx
  | succ t ih =>
    rw [Function.iterate_succ_apply']
    exact cycleStep_lt p1 p2 n hp1 hp2 _ ih

theorem cycleStep_iterate_inj (p1 p2 : List Nat) (n : Nat)
    (hp1 : List.Perm p1 (List.range n)) (hp2 : List.Perm p2 (List.range n)) (t x y : Nat)
    (hx : x < n) (hy : y < n) (h : (cycleStep p1 p2)^[t] x = (cycleStep p1 p2)^[t] y) :
    x = y := by
  induction t with
  | zero => simpa using h
  | succ t ih =>
    rw [Function.iterate_succ_apply', Function.iterate_succ_apply'] at h
    exact ih (cycleStep_inj p1 p2 n hp1 hp2 _ _
      (cycleStep_iterate_lt_of_lt p1 p2 n hp1 hp2 x hx t)
      (cycleStep_iterate_lt_of_lt p1 p2 n hp1 hp2 y hy t) h)

theorem cycleStep_iterate_back (p1 p2 : List Nat) (n : Nat)
    (hp1 : List.Perm p1 (List.range n)) (hp2 : List.Perm p2 (List.range n)) (hn : 0 < n)
    (t : Nat) : (cycleStep p2 p1)^[t] ((cycleStep p1 p2)^[t] 0) = 0 := by
  induction t with
  | zero => rfl
  | succ t ih =>
    rw [Function.iterate_succ_apply, Function.iterate_succ_apply',
      cycleStep_left_inv p1 p2 n hp1 hp2 _ (cycleStep_iterate_lt p1 p2 n hp1 hp2 hn t)]
    exact ih

theorem inOrbit_swap (p1 p2 : List Nat) (n : Nat) (hp1 : List.Perm p1 (List.range n))
    (hp2 : List.Perm p2 (List.range n)) (hn : 0 < n) (i : Nat) (h : InOrbit p1 p2 i) :
    InOrbit p2 p1 i := by
  obtain ⟨t, rfl⟩ := h
  obtain ⟨k, hk0, _, hkper, _⟩ := cycleStep_period p2 p1 n hp2 hp1 hn
  have hmul : (cycleStep p2 p1)^[k * t] 0 = 0 :=
    Function.IsPeriodicPt.mul_const (f := cycleStep p2 p1) (m := k) hkper t
  have hsplit : k * t = t + (k * t - t) := by
    have : t ≤ k * t := Nat.le_mul_of_pos_left t hk0
    omega
  rw [hsplit, Function.iterate_add_apply] at hmul
  have hback := cycleStep_iterate_back p1 p2 n hp1 hp2 hn t
  refine ⟨k * t - t, ?_⟩
  exact cycleStep_iterate_inj p2 p1 n hp2 hp1 t _ _
    (cycleStep_iterate_lt p2 p1 n hp2 hp1 hn _) (cycleStep_iterate_lt p1 p2 n hp1 hp2 hn t)
    (hmul.trans hback.symm)

theorem inOrbit_swap_iff (p1 p2 : List Nat) (n : Nat) (hp1 : List.Perm p1 (List.range n))
    (hp2 : List.Perm p2 (List.range n)) (hn : 0 < n) (i : Nat) :
    InOrbit p1 p2 i ↔ InOrbit p2 p1 i :=
  ⟨inOrbit_swap p1 p2 n hp1 hp2 hn i, inOrbit_swap p2 p1 n hp2 hp1 hn i⟩

theorem find_unroll_none (p1 p2 : List Nat) (n : Nat) (hp1 : List.Perm p1 (List.range n))
    (hp2 : List.Perm p2 (List.range n)) (hn : 0 < n) (k : Nat)
    (hkmin : ∀ t, 0 < t → t < k → (cycleStep p1 p2)^[t] 0 ≠ 0)
    (fuel m : Nat) (acc : List Nat) (hfuel : fuel + m < k) :
    find p1 p2 0 fuel (p1.getD ((cycleStep p1 p2)^[m] 0) 0) acc = none := by
  have hl1 := perm_range_length p1 n hp1
  have hl2 := perm_range_length p2 n hp2
  have hnd1 : p1.Nodup := hp1.nodup_iff.mpr (List.nodup_range n)
  induction fuel generalizing m acc with
  | zero => rfl
  | succ fuel ih =>
    have hj : p2.indexOf (p1.getD ((cycleStep p1 p2)^[m] 0) 0) =
        (cycleStep p1 p2)^[m + 1] 0 := by
      rw [Function.iterate_succ_apply']
      rfl
    have hjlt : (cycleStep p1 p2)^[m + 1] 0 < p1.length := by
      rw [hl1]; exact cycleStep_iterate_lt p1 p2 n hp1 hp2 hn _
    have h0lt : 0 < p1.length := by omega
    rw [find]
    rw [hj, List.getElem?_eq_getElem hjlt, List.getElem?_eq_getElem h0lt]
    dsimp only
    have hz : (cycleStep p1 p2)^[m + 1] 0 ≠ 0 := hkmin (m + 1) (by omega) (by omega)
    have hval : ¬ p1[(cycleStep p1 p2)^[m + 1] 0] = p1[0] := by
      intro h
      exact hz ((hnd1.getElem_inj_iff).mp h)
    rw [if_neg hval, if_pos (by omega)]
    have hcur : p1[(cycleStep p1 p2)^[m + 1] 0] =
        p1.getD ((cycleStep p1 p2)^[m + 1] 0) 0 := (List.getD_eq_getElem _ _ hjlt).symm
    rw [hcur]
    exact ih (m + 1) _ (by omega)

/-- The cycle search of `CycleCrossover` on permutations of `0, ..., n-1`: it makes as many
calls as it records positions, at most `n`. -/
theorem find_terminates (p1 p2 : List Nat) (n : Nat) (hp1 : List.Perm p1 (List.range n))
    (hp2 : List.Perm p2 (List.range n)) (hn : 0 < n) :
    ∃ l, 0 < l.length ∧ l.length ≤ n ∧
      (∀ fuel, l.length ≤ fuel → find p1 p2 0 fuel (p1.getD 0 0) [] = some l) ∧
      (∀ fuel, fuel < l.length → find p1 p2 0 fuel (p1.getD 0 0) [] = none) ∧
      (∀ i ∈ l, i < n) ∧ l.Nodup ∧ l.getLast? = some 0 := by
  obtain ⟨k, hk0, hkn, hkper, hkmin⟩ := cycleStep_period p1 p2 n hp1 hp2 hn
  refine ⟨(List.range' 1 k).map (fun t => (cycleStep p1 p2)^[t] 0), by simpa using hk0,
    by simpa using hkn, ?_, ?_, ?_, ?_, ?_⟩
  · intro fuel hfuel
    have h := find_unroll p1 p2 n hp1 hp2 hn k hkper hkmin fuel 0 [] hk0
      (by simpa using hfuel)
    simpa using h
  · intro fuel hfuel
    have h := find_unroll_none p1 p2 n hp1 hp2 hn k hkmin fuel 0 [] (by simpa using hfuel)
    simpa using h
  · intro i hi
    obtain ⟨t, _, rfl⟩ := List.mem_map.mp hi
    exact cycleStep_iterate_lt p1 p2 n hp1 hp2 hn t
  · refine List.Nodup.map_on ?_ (List.nodup_range' 1 k)
    have hlt : ∀ x y, 1 ≤ x → x < y → y ≤ k →
        (cycleStep p1 p2)^[x] 0 ≠ (cycleStep p1 p2)^[y] 0 := by
      intro x y hx hxy hyk heq
      have hc := cycleStep_iterate_cancel p1 p2 n hp1 hp2 hn x (y - x)
        (by rw [show x + (y - x) = y by omega]; exact heq.symm)
      exact hkmin (y - x) (by omega) (by omega) hc
    intro x hx y hy heq
    have hx1 := List.mem_range'_1.mp hx
    have hy1 := List.mem_range'_1.mp hy
    rcases Nat.lt_trichotomy x y with h | h | h
    · exact absurd heq (hlt x y hx1.1 h (by omega))
    · exact h
    · exact absurd heq.symm (hlt y x hy1.1 h (by omega))
  · obtain ⟨k', rfl⟩ : ∃ k', k = k' + 1 := ⟨k - 1, by omega⟩
    rw [List.range'_concat, List.map_append, List.map_singleton, List.getLast?_concat]
    simp only [Nat.one_mul]
    rw [show 1 + k' = k' + 1 by omega]
    exact congrArg some hkper

/-! ## Lemmas on `NewGeneration` -/

theorem range'_two (a n : Nat) :
    List.range' a (n + 2) = a :: (a + 1) :: List.range' (a + 2) n := by
  rw [List.range'_succ, List.range'_succ]

theorem redraw_some (parent1Index : Nat) (draws : Nat → Nat) (n : Nat)
    (hlt : ∀ j, draws j < n) (fuel j0 : Nat)
    (h : ∃ j, j0 ≤ j ∧ j < j0 + fuel ∧ draws j ≠ parent1Index) :
    ∃ v, redraw parent1Index draws fuel j0 = some v ∧ v < n := by
  induction fuel generalizing j0 with
  | zero =>
    obtain ⟨j, h1, h2, _⟩ := h
    omega
  | succ fuel ih =>
    by_cases heq : parent1Index = draws j0
    · obtain ⟨j, h1, h2, h3⟩ := h
      have hne : j ≠ j0 := by
        intro hj
        subst hj
        exact h3 heq.symm
      obtain ⟨v, hv, hvn⟩ := ih (j0 + 1) ⟨j, by omega, by omega, h3⟩
      exact ⟨v, by simp [redraw, heq.symm, hv], hvn⟩
    · exact ⟨draws j0, by simp [redraw, heq], hlt j0⟩

theorem redraw_none (parent1Index : Nat) (draws : Nat → Nat)
    (h : ∀ j, draws j = parent1Index) (fuel j0 : Nat) :
    redraw parent1Index draws fuel j0 = none := by
  induction fuel generalizing j0 with
  | zero => rfl
  | succ fuel ih => simp [redraw, h j0, ih]

/-- One pass of the loop of `NewGeneration` when the parent indices can be drawn and the
operators return. -/
theorem newGenerationLoop_pass (generationSize : Nat) (parents : List (Image β))
    (fresh : Image β) (put : Image β → Image β)
    (crossover : Nat → Image β → Image β → Image β → Image β → Option (Image β × Image β))
    (mutation : Nat → Image β → Option (Image β)) (draws : Nat → PassDraws) (fuel : Nat)
    (hd1 : ∀ k, (draws k).parent1Index < parents.length)
    (hd2 : ∀ k j, (draws k).parent2Index j < parents.length)
    (hredraw : ∀ k, ∃ j, j < fuel ∧ (draws k).parent2Index j ≠ (draws k).parent1Index)
    (hops : ∀ k p1 p2, p1 ∈ parents → p2 ∈ parents →
      ∃ c1 c2, crossover k fresh fresh p1 p2 = some (c1, c2) ∧
        (∃ m1, mutation (2 * k) c1 = some m1) ∧ (∃ m2, mutation (2 * k + 1) c2 = some m2))
    (k : Nat) (tr : Trace β) (hiter : tr.iter < generationSize) :
    ∃ child1 child2, ∀ passes,
      NewGenerationLoop generationSize parents fresh put crossover mutation draws fuel
        (passes + 1) k tr =
      if tr.iter < tr.newGeneration.length then
        if tr.iter + 1 < tr.newGeneration.length then
          NewGenerationLoop generationSize parents fresh put crossover mutation draws
            fuel passes (k + 1)
            { newGeneration :=
                (tr.newGeneration.set tr.iter (put child1)).set (tr.iter + 1) (put child2)
              iter := tr.iter + 2
              crossoverCalls := tr.crossoverCalls + 1
              writes := tr.writes ++ [tr.iter, tr.iter + 1] }
        else
          ({ newGeneration := tr.newGeneration.set tr.iter (put child1)
             iter := tr.iter + 1
             crossoverCalls := tr.crossoverCalls + 1
             writes := tr.writes ++ [tr.iter] }, Outcome.undefinedBehaviour)
      else
        ({ tr with crossoverCalls := tr.crossoverCalls + 1 }, Outcome.undefinedBehaviour) := by
  obtain ⟨j, hj1, hj2⟩ := hredraw k
  obtain ⟨v, hv, hvn⟩ := redraw_some (draws k).parent1Index (draws k).parent2Index
    parents.length (hd2 k) fuel 0 ⟨j, Nat.zero_le j, by omega, hj2⟩
  have hp1 := hd1 k
  obtain ⟨c1, c2, hc, ⟨m1, hm1⟩, ⟨m2, hm2⟩⟩ := hops k parents[(draws k).parent1Index] parents[v]
    (List.getElem_mem hp1) (List.getElem_mem hvn)
  have hmut1 : ∃ x, (if (draws k).mutate1 then mutation (2 * k) c1 else some c1) = some x := by
    by_cases hb : (draws k).mutate1
    · exact ⟨m1, by simp [hb, hm1]⟩
    · exact ⟨c1, by simp [hb]⟩
  have hmut2 : ∃ x, (if (draws k).mutate2 then mutation (2 * k + 1) c2 else some c2) =
      some x := by
    by_cases hb : (draws k).mutate2
    · exact ⟨m2, by simp [hb, hm2]⟩
    · exact ⟨c2, by simp [hb]⟩
  obtain ⟨x1, hx1⟩ := hmut1
  obtain ⟨x2, hx2⟩ := hmut2
  refine ⟨x1, x2, ?_⟩
  intro passes
  rw [NewGenerationLoop]
  rw [if_neg (by omega), hv]
  dsimp only
  rw [List.getElem?_eq_getElem hp1, List.getElem?_eq_getElem hvn]
  dsimp only
  rw [hc]
  dsimp only
  rw [hx1, hx2]

theorem newGenerationLoop_odd (generationSize : Nat) (parents : List (Image β))
    (fresh : Image β) (put : Image β → Image β)
    (crossover : Nat → Image β → Image β → Image β → Image β → Option (Image β × Image β))
    (mutation : Nat → Image β → Option (Image β)) (draws : Nat → PassDraws) (fuel : Nat)
    (hd1 : ∀ k, (draws k).parent1Index < parents.length)
    (hd2 : ∀ k j, (draws k).parent2Index j < parents.length)
    (hredraw : ∀ k, ∃ j, j < fuel ∧ (draws k).parent2Index j ≠ (draws k).parent1Index)
    (hops : ∀ k p1 p2, p1 ∈ parents → p2 ∈ parents →
      ∃ c1 c2, crossover k fresh fresh p1 p2 = some (c1, c2) ∧
        (∃ m1, mutation (2 * k) c1 = some m1) ∧ (∃ m2, mutation (2 * k + 1) c2 = some m2))
    (r passes k : Nat) (tr : Trace β) (hlen : tr.newGeneration.length = generationSize)
    (hiter : tr.iter + 2 * r + 1 = generationSize) (hpasses : r + 1 ≤ passes) :
    ∃ tr', NewGenerationLoop generationSize parents fresh put crossover mutation draws fuel
        passes k tr = (tr', Outcome.undefinedBehaviour) ∧
      tr'.crossoverCalls = tr.crossoverCalls + r + 1 ∧
      tr'.writes = tr.writes ++ List.range' tr.iter (2 * r + 1) ∧
      tr'.newGeneration.length = generationSize ∧ tr'.iter = generationSize := by
  induction r generalizing passes k tr with
  | zero =>
    obtain ⟨p, rfl⟩ : ∃ p, passes = p + 1 := ⟨passes - 1, by omega⟩
    obtain ⟨x1, x2, hpass⟩ := newGenerationLoop_pass generationSize parents fresh put
      crossover mutation draws fuel hd1 hd2 hredraw hops k tr (by omega)
    rw [hpass p, if_pos (by omega), if_neg (by omega)]
    exact ⟨_, rfl, rfl, by simp, by simpa using hlen, by simp only; omega⟩
  | succ r ih =>
    obtain ⟨p, rfl⟩ : ∃ p, passes = p + 1 := ⟨passes - 1, by omega⟩
    obtain ⟨x1, x2, hpass⟩ := newGenerationLoop_pass generationSize parents fresh put
      crossover mutation draws fuel hd1 hd2 hredraw hops k tr (by omega)
    rw [hpass p, if_pos (by omega), if_pos (by omega)]
    obtain ⟨tr', h1, h2, h3, h4, h5⟩ := ih p (k + 1)
      { newGeneration :=
          (tr.newGeneration.set tr.iter (put x1)).set (tr.iter + 1) (put x2)
        iter := tr.iter + 2
        crossoverCalls := tr.crossoverCalls + 1
        writes := tr.writes ++ [tr.iter, tr.iter + 1] }
      (by simpa using hlen) (by simp only; omega) (by omega)
    refine ⟨tr', h1, by rw [h2]; simp only; omega, ?_, h4, h5⟩
    rw [h3]
    simp only
    rw [show 2 * (r + 1) + 1 = (2 * r + 1) + 2 by omega, range'_two]
    simp

theorem passChildren_some (parents : List (Image β)) (fresh : Image β)
    (put : Image β → Image β)
    (crossover : Nat → Image β → Image β → Image β → Image β → Option (Image β × Image β))
    (mutation : Nat → Image β → Option (Image β)) (draws : Nat → PassDraws) (fuel : Nat)
    (hd1 : ∀ k, (draws k).parent1Index < parents.length)
    (hd2 : ∀ k j, (draws k).parent2Index j < parents.length)
    (hredraw : ∀ k, ∃ j, j < fuel ∧ (draws k).parent2Index j ≠ (draws k).parent1Index)
    (hops : ∀ k p1 p2, p1 ∈ parents → p2 ∈ parents →
      ∃ c1 c2, crossover k fresh fresh p1 p2 = some (c1, c2) ∧
        (∃ m1, mutation (2 * k) c1 = some m1) ∧ (∃ m2, mutation (2 * k + 1) c2 = some m2))
    (k : Nat) :
    ∃ a b, passChildren parents fresh put crossover mutation draws fuel k = some (a, b) := by
  obtain ⟨j, hj1, hj2⟩ := hredraw k
  obtain ⟨v, hv, hvn⟩ := redraw_some (draws k).parent1Index (draws k).parent2Index
    parents.length (hd2 k) fuel 0 ⟨j, Nat.zero_le j, by omega, hj2⟩
  have hp1 := hd1 k
  obtain ⟨c1, c2, hc, ⟨m1, hm1⟩, ⟨m2, hm2⟩⟩ := hops k parents[(draws k).parent1Index] parents[v]
    (List.getElem_mem hp1) (List.getElem_mem hvn)
  have hmut1 : ∃ x, (if (draws k).mutate1 then mutation (2 * k) c1 else some c1) = some x := by
    by_cases hb : (draws k).mutate1
    · exact ⟨m1, by simp [hb, hm1]⟩
    · exact ⟨c1, by simp [hb]⟩
  have hmut2 : ∃ x, (if (draws k).mutate2 then mutation (2 * k + 1) c2 else some c2) =
      some x := by
    by_cases hb : (draws k).mutate2
    · exact ⟨m2, by simp [hb, hm2]⟩
    · exact ⟨c2, by simp [hb]⟩
  obtain ⟨x1, hx1⟩ := hmut1
  obtain ⟨x2, hx2⟩ := hmut2
  refine ⟨put x1, put x2, ?_⟩
  unfold passChildren
  rw [hv]
  dsimp only
  rw [List.getElem?_eq_getElem hp1, List.getElem?_eq_getElem hvn]
  dsimp only
  rw [hc]
  dsimp only
  rw [hx1, hx2]

/-- One pass of the loop of `NewGeneration` stores the two images of `passChildren`. -/
theorem newGenerationLoop_stores (generationSize : Nat) (parents : List (Image β))
    (fresh : Image β) (put : Image β → Image β)
    (crossover : Nat → Image β → Image β → Image β → Image β → Option (Image β × Image β))
    (mutation : Nat → Image β → Option (Image β)) (draws : Nat → PassDraws) (fuel : Nat)
    (k : Nat) (tr : Trace β) (a b : Image β)
    (hch : passChildren parents fresh put crossover mutation draws fuel k = some (a, b))
    (hiter : tr.iter + 1 < generationSize) (hlen : tr.newGeneration.length = generationSize)
    (passes : Nat) :
    NewGenerationLoop generationSize parents fresh put crossover mutation draws fuel
        (passes + 1) k tr =
      NewGenerationLoop generationSize parents fresh put crossover mutation draws
        fuel passes (k + 1)
        { newGeneration := (tr.newGeneration.set tr.iter a).set (tr.iter + 1) b
          iter := tr.iter + 2
          crossoverCalls := tr.crossoverCalls + 1
          writes := tr.writes ++ [tr.iter, tr.iter + 1] } := by
  unfold passChildren at hch
  rw [NewGenerationLoop, if_neg (by omega)]
  cases hr : redraw (draws k).parent1Index (draws k).parent2Index fuel 0 with
  | none => rw [hr] at hch; simp at hch
  | some v =>
    rw [hr] at hch
    dsimp only at hch ⊢
    cases hp1 : parents[(draws k).parent1Index]? with
    | none => rw [hp1] at hch; simp at hch
    | some p1 =>
      cases hp2 : parents[v]? with
      | none => rw [hp1, hp2] at hch; simp at hch
      | some p2 =>
        rw [hp1, hp2] at hch
        dsimp only at hch ⊢
        cases hc : crossover k fresh fresh p1 p2 with
        | none => rw [hc] at hch; simp at hch
        | some cc =>
          obtain ⟨c1, c2⟩ := cc
          rw [hc] at hch
          dsimp only at hch ⊢
          cases hm1 : (if (draws k).mutate1 then mutation (2 * k) c1 else some c1) with
          | none => rw [hm1] at hch; simp at hch
          | some x1 =>
            cases hm2 : (if (draws k).mutate2 then mutation (2 * k + 1) c2 else some c2) with
            | none => rw [hm1, hm2] at hch; simp at hch
            | some x2 =>
              rw [hm1, hm2] at hch
              simp only [Option.some.injEq, Prod.mk.injEq] at hch
              obtain ⟨ha, hb⟩ := hch
              subst ha
              subst hb
              dsimp only
              rw [if_pos (by omega), if_pos (by omega)]

theorem newGenerationLoop_even_children (generationSize : Nat) (parents : List (Image β))
    (fresh : Image β) (put : Image β → Image β)
    (crossover : Nat → Image β → Image β → Image β → Image β → Option (Image β × Image β))
    (mutation : Nat → Image β → Option (Image β)) (draws : Nat → PassDraws) (fuel : Nat)
    (hd1 : ∀ k, (draws k).parent1Index < parents.length)
    (hd2 : ∀ k j, (draws k).parent2Index j < parents.length)
    (hredraw : ∀ k, ∃ j, j < fuel ∧ (draws k).parent2Index j ≠ (draws k).parent1Index)
    (hops : ∀ k p1 p2, p1 ∈ parents → p2 ∈ parents →
      ∃ c1 c2, crossover k fresh fresh p1 p2 = some (c1, c2) ∧
        (∃ m1, mutation (2 * k) c1 = some m1) ∧ (∃ m2, mutation (2 * k + 1) c2 = some m2))
    (r passes k : Nat) (tr : Trace β) (hlen : tr.newGeneration.length = generationSize)
    (hiter : tr.iter + 2 * r = generationSize) (hpasses : r + 1 ≤ passes) :
    ∃ tr', NewGenerationLoop generationSize parents fresh put crossover mutation draws fuel
        passes k tr = (tr', Outcome.finished) ∧
      tr'.crossoverCalls = tr.crossoverCalls + r ∧
      tr'.writes = tr.writes ++ List.range' tr.iter (2 * r) ∧
      tr'.newGeneration.length = generationSize ∧ tr'.iter = generationSize ∧
      (∀ i, i < tr.iter → tr'.newGeneration[i]? = tr.newGeneration[i]?) ∧
      (∀ j, j < r → ∃ a b,
        passChildren parents fresh put crossover mutation draws fuel (k + j) = some (a, b) ∧
        tr'.newGeneration[tr.iter + 2 * j]? = some a ∧
        tr'.newGeneration[tr.iter + 2 * j + 1]? = some b) := by
  induction r generalizing passes k tr with
  | zero =>
    obtain ⟨p, rfl⟩ : ∃ p, passes = p + 1 := ⟨passes - 1, by omega⟩
    refine ⟨tr, ?_, by simp, by simp, hlen, by omega, fun _ _ => rfl, fun j hj => by omega⟩
    rw [NewGenerationLoop, if_pos (by omega)]
  | succ r ih =>
    obtain ⟨p, rfl⟩ : ∃ p, passes = p + 1 := ⟨passes - 1, by omega⟩
    obtain ⟨a, b, hch⟩ := passChildren_some parents fresh put crossover mutation draws fuel
      hd1 hd2 hredraw hops k
    rw [newGenerationLoop_stores generationSize parents fresh put crossover mutation draws
      fuel k tr a b hch (by omega) hlen p]
    obtain ⟨tr', h1, h2, h3, h4, h5, h6, h7⟩ := ih p (k + 1)
      { newGeneration := (tr.newGeneration.set tr.iter a).set (tr.iter + 1) b
        iter := tr.iter + 2
        crossoverCalls := tr.crossoverCalls + 1
        writes := tr.writes ++ [tr.iter, tr.iter + 1] }
      (by simpa using hlen) (by simp only; omega) (by omega)
    simp only at h6 h7
    refine ⟨tr', h1, by rw [h2]; simp only; omega, ?_, h4, h5, ?_, ?_⟩
    · rw [h3]
      simp only
      rw [show 2 * (r + 1) = 2 * r + 2 by omega, range'_two]
      simp
    · intro i hi
      rw [h6 i (by omega), List.getElem?_set, if_neg (by omega), List.getElem?_set,
        if_neg (by omega)]
    · intro j hj
      cases j with
      | zero =>
        refine ⟨a, b, hch, ?_, ?_⟩
        · rw [Nat.mul_zero, Nat.add_zero, h6 tr.iter (by omega), List.getElem?_set,
            if_neg (by omega), List.getElem?_set, if_pos rfl, if_pos (by omega)]
        · rw [Nat.mul_zero, Nat.add_zero, h6 (tr.iter + 1) (by omega), List.getElem?_set,
            if_pos rfl, if_pos (by simp; omega)]
      | succ j =>
        obtain ⟨a', b', hch', ha', hb'⟩ := h7 j (by omega)
        refine ⟨a', b', ?_, ?_, ?_⟩
        · rw [show k + (j + 1) = k + 1 + j by omega]
          exact hch'
        · rw [show tr.iter + 2 * (j + 1) = tr.iter + 2 + 2 * j by omega]
          exact ha'
        · rw [show tr.iter + 2 * (j + 1) + 1 = tr.iter + 2 + 2 * j + 1 by omega]
          exact hb'

/-! ## Lemmas on the rounding of `float` -/

theorem ids_getElem? (im : Image β) (j : Nat) :
    im.ids[j]? = (im.images[j]?).map Prod.fst := by
  simp [Image.ids]

/-- C1: for `n ≥ 1` and parents whose tile ids are permutations of `0, ..., n-1`,
`CycleCrossover` returns (with fuel `n` or more for the cycle search) and the tile ids of
both children are permutations of `0, ..., n-1`. -/
theorem cycleCrossover_children_permutations (fuel n : Nat)
    (child1 child2 parent1 parent2 : Image β) (hn : 1 ≤ n)
    (hp1 : parent1.IsPermutation n) (hp2 : parent2.IsPermutation n) (hfuel : n ≤ fuel) :
    ∃ c1 c2, CycleCrossover fuel n child1 child2 parent1 parent2 = some (c1, c2) ∧
      c1.IsPermutation n ∧ c2.IsPermutation n := by
  obtain ⟨c1, c2, hc, hlen1, hlen2, h1in, h1out, h2in, h2out⟩ :=
    cycleCrossover_spec fuel n child1 child2 parent1 parent2 hp1 hp2 hn hfuel
  refine ⟨c1, c2, hc, ?_, ?_⟩
  · apply orbit_mix_perm parent1.ids parent2.ids c1.ids n hp1 hp2 (by simpa [Image.ids] using hlen1)
    · intro j hj
      rw [ids_getElem?, ids_getElem?, h1in j hj]
    · intro j hj
      rw [ids_getElem?, ids_getElem?, h1out j hj]
  · apply orbit_mix_perm parent2.ids parent1.ids c2.ids n hp2 hp1 (by simpa [Image.ids] using hlen2)
    · intro j hj
      rw [ids_getElem?, ids_getElem?, h2in j hj]
    · intro j hj
      rw [ids_getElem?, ids_getElem?, h2out j hj]

/-- Witness for C1: parents `[4, 2, 0, 1, 3]` and `[3, 2, 1, 0, 4]`. -/
theorem cycleCrossover_children_permutations_witness :
    ∃ c1 c2, CycleCrossover 5 5 (⟨[], 0⟩ : Image Unit) ⟨[], 0⟩
        ⟨[(4, ()), (2, ()), (0, ()), (1, ()), (3, ())], 0⟩
        ⟨[(3, ()), (2, ()), (1, ()), (0, ()), (4, ())], 0⟩ = some (c1, c2) ∧
      c1.IsPermutation 5 ∧ c2.IsPermutation 5 :=
  cycleCrossover_children_permutations 5 5 ⟨[], 0⟩ ⟨[], 0⟩
    ⟨[(4, ()), (2, ()), (0, ()), (1, ()), (3, ())], 0⟩
    ⟨[(3, ()), (2, ()), (1, ()), (0, ()), (4, ())], 0⟩ (by decide)
    (by simp [Image.IsPermutation, Image.ids]; decide)
    (by simp [Image.IsPermutation, Image.ids]; decide) (by decide)

/-- C5: for parents whose tile ids `p1`, `p2` are permutations of `0, ..., n-1` (`n ≥ 1`),
`CycleCrossover` returns children such that child1 has the id of `p1` at every position on
the orbit of position `0` under `i ↦ position of p1[i] in p2` and the id of `p2` at every
other position, and child2 has the id of `p2` at every position on the orbit of position
`0` under `i ↦ position of p2[i] in p1` and the id of `p1` at every other position. -/
theorem cycleCrossover_orbit (fuel n : Nat) (child1 child2 parent1 parent2 : Image β)
    (hn : 1 ≤ n) (hp1 : parent1.IsPermutation n) (hp2 : parent2.IsPermutation n)
    (hfuel : n ≤ fuel) :
    ∃ c1 c2, CycleCrossover fuel n child1 child2 parent1 parent2 = some (c1, c2) ∧
      c1.ids.length = n ∧ c2.ids.length = n ∧
      (∀ i, i < n →
        (InOrbit parent1.ids parent2.ids i → c1.ids[i]? = parent1.ids[i]?) ∧
        (¬ InOrbit parent1.ids parent2.ids i → c1.ids[i]? = parent2.ids[i]?)) ∧
      (∀ i, i < n →
        (InOrbit parent2.ids parent1.ids i → c2.ids[i]? = parent2.ids[i]?) ∧
        (¬ InOrbit parent2.ids parent1.ids i → c2.ids[i]? = parent1.ids[i]?)) := by
  obtain ⟨c1, c2, hc, hlen1, hlen2, h1in, h1out, h2in, h2out⟩ :=
    cycleCrossover_spec fuel n child1 child2 parent1 parent2 hp1 hp2 hn hfuel
  refine ⟨c1, c2, hc, by simpa [Image.ids] using hlen1, by simpa [Image.ids] using hlen2, ?_, ?_⟩
  · intro i _
    exact ⟨fun h => by rw [ids_getElem?, ids_getElem?, h1in i h],
      fun h => by rw [ids_getElem?, ids_getElem?, h1out i h]⟩
  · intro i _
    exact ⟨fun h => by rw [ids_getElem?, ids_getElem?, h2in i h],
      fun h => by rw [ids_getElem?, ids_getElem?, h2out i h]⟩

/-- Witness for C5: parents `[4, 2, 0, 1, 3]` and `[3, 2, 1, 0, 4]`. -/
theorem cycleCrossover_orbit_witness :
    ∃ c1 c2, CycleCrossover 5 5 (⟨[], 0⟩ : Image Unit) ⟨[], 0⟩
        ⟨[(4, ()), (2, ()), (0, ()), (1, ()), (3, ())], 0⟩
        ⟨[(3, ()), (2, ()), (1, ()), (0, ()), (4, ())], 0⟩ = some (c1, c2) ∧
      c1.ids.length = 5 ∧ c2.ids.length = 5 ∧
      (∀ i, i < 5 →
        (InOrbit [4, 2, 0, 1, 3] [3, 2, 1, 0, 4] i → c1.ids[i]? = [4, 2, 0, 1, 3][i]?) ∧
        (¬ InOrbit [4, 2, 0, 1, 3] [3, 2, 1, 0, 4] i → c1.ids[i]? = [3, 2, 1, 0, 4][i]?)) ∧
      (∀ i, i < 5 →
        (InOrbit [3, 2, 1, 0, 4] [4, 2, 0, 1, 3] i → c2.ids[i]? = [3, 2, 1, 0, 4][i]?) ∧
        (¬ InOrbit [3, 2, 1, 0, 4] [4, 2, 0, 1, 3] i → c2.ids[i]? = [4, 2, 0, 1, 3][i]?)) :=
  cycleCrossover_orbit 5 5 ⟨[], 0⟩ ⟨[], 0⟩
    ⟨[(4, ()), (2, ()), (0, ()), (1, ()), (3, ())], 0⟩
    ⟨[(3, ()), (2, ()), (1, ()), (0, ()), (4, ())], 0⟩ (by decide)
    (by simp [Image.IsPermutation, Image.ids]; decide)
    (by simp [Image.IsPermutation, Image.ids]; decide) (by decide)


/-! ## Order-1 crossover -/

/-- C2: for parents whose tile ids are permutations of `0, ..., n-1` and two distinct cut
points below `n` (so `n ≥ 2`), `Order1Crossover` returns, and the child it assigns has `n`
tile ids that are a permutation of `0, ..., n-1`. -/
theorem order1_child_permutation [Inhabited β] (n c1 c2 : Nat)
    (child child2 parent1 parent2 : Image β)
    (hp1 : parent1.IsPermutation n) (hp2 : parent2.IsPermutation n)
    (_hc : c1 ≠ c2) (h1 : c1 < n) (h2 : c2 < n) :
    ∃ c c', Order1Crossover n c1 c2 child child2 parent1 parent2 = some (c, c') ∧
      c.ids.length = n ∧ c.IsPermutation n := by
  obtain ⟨c, X, hc, hids, _, _, hperm⟩ :=
    order1_ids n c1 c2 child child2 parent1 parent2 hp1 hp2 h1 h2
  have hnd1 : parent1.ids.Nodup := hp1.nodup_iff.mpr (List.nodup_range n)
  have hP : List.Perm c.ids (List.range n) := by
    rw [hids]
    have hX : List.Perm X (parent1.ids.drop (max c1 c2 - min c1 c2 + 1)) := by
      have h := removeDuplicates_ids_perm parent1.images parent2.images
        (max c1 c2 - min c1 c2 + 1) (hp2.trans hp1.symm) hnd1
      rw [removeDuplicates_ids] at h
      refine hperm.trans ?_
      simpa [Image.ids, List.map_take, List.map_drop] using h
    have e1 : List.Perm (X.take (min c1 c2) ++
        parent1.ids.take (max c1 c2 - min c1 c2 + 1) ++ X.drop (min c1 c2))
        (parent1.ids.take (max c1 c2 - min c1 c2 + 1) ++
          (X.take (min c1 c2) ++ X.drop (min c1 c2))) := by
      rw [List.append_assoc]
      exact List.perm_append_comm.trans (by
        rw [List.append_assoc]
        exact List.Perm.append_left _ List.perm_append_comm)
    rw [List.take_append_drop] at e1
    refine e1.trans ?_
    refine (List.Perm.append_left _ hX).trans ?_
    rw [List.take_append_drop]
    exact hp1
  exact ⟨c, child2, hc, by simpa using hP.length_eq, hP⟩

/-- Witness for C2: parents `[0, 1, 2]` and `[2, 1, 0]`, cut points `1` and `2`. -/
theorem order1_child_permutation_witness :
    ∃ c c', Order1Crossover 3 1 2 (⟨[], 0⟩ : Image Unit) ⟨[], 0⟩
        ⟨[(0, ()), (1, ()), (2, ())], 0⟩ ⟨[(2, ()), (1, ()), (0, ())], 0⟩ = some (c, c') ∧
      c.ids.length = 3 ∧ c.IsPermutation 3 :=
  order1_child_permutation 3 1 2 ⟨[], 0⟩ ⟨[], 0⟩ ⟨[(0, ()), (1, ()), (2, ())], 0⟩
    ⟨[(2, ()), (1, ()), (0, ())], 0⟩ (by simp [Image.IsPermutation, Image.ids]; decide)
    (by simp [Image.IsPermutation, Image.ids]; decide) (by decide) (by decide) (by decide)

/-- C3, the code at the failing input: parents `[0, 1, 2]` and `[2, 1, 0]` with the cut
points `1` and `2` (`lo = 1`, `hi = 2`) give the child `[2, 0, 1]`: positions `1` and `2`
hold the ids of positions `0` and `1` of parent1, not those of positions `1` and `2`. -/
theorem order1_segment_failing_input :
    ∃ c c', Order1Crossover 3 1 2 (⟨[], 0⟩ : Image Unit) ⟨[], 0⟩
        ⟨[(0, ()), (1, ()), (2, ())], 0⟩ ⟨[(2, ()), (1, ()), (0, ())], 0⟩ = some (c, c') ∧
      c.ids = [2, 0, 1] ∧
      c.ids[1]? ≠ (⟨[(0, ()), (1, ()), (2, ())], 0⟩ : Image Unit).ids[1]? ∧
      c.ids[2]? ≠ (⟨[(0, ()), (1, ()), (2, ())], 0⟩ : Image Unit).ids[2]? := by
  refine ⟨⟨[(2, ()), (0, ()), (1, ())], 0⟩, ⟨[], 0⟩, ?_, ?_, ?_, ?_⟩
  · rfl
  · rfl
  · simp [Image.ids]
  · simp [Image.ids]

/-- C4, refuted as stated: parents `[0, 1, 2, 3]` and `[3, 2, 1, 0]` with the cut points
`0` and `1` give the child `[0, 1, 2, 3]`, whose positions outside `[0, 1]` hold `[2, 3]`,
while parent2 without the ids `0`, `1` of the copied block is `[3, 2]`. -/
theorem order1_rest_not_in_parent2_order :
    ∃ c c', Order1Crossover 4 0 1 (⟨[], 0⟩ : Image Unit) ⟨[], 0⟩
        ⟨[(0, ()), (1, ()), (2, ()), (3, ())], 0⟩
        ⟨[(3, ()), (2, ()), (1, ()), (0, ())], 0⟩ = some (c, c') ∧
      c.ids.take 0 ++ c.ids.drop (1 + 1) = [2, 3] ∧
      (⟨[(3, ()), (2, ()), (1, ()), (0, ())], 0⟩ : Image Unit).ids.filter
        (fun x => decide (x ∉ (c.ids.drop 0).take (1 - 0 + 1))) = [3, 2] ∧
      c.ids.take 0 ++ c.ids.drop (1 + 1) ≠
        (⟨[(3, ()), (2, ()), (1, ()), (0, ())], 0⟩ : Image Unit).ids.filter
          (fun x => decide (x ∉ (c.ids.drop 0).take (1 - 0 + 1))) := by
  refine ⟨⟨[(0, ()), (1, ()), (2, ()), (3, ())], 0⟩, ⟨[], 0⟩, ?_, ?_, ?_, ?_⟩
  · rfl
  · rfl
  · simp [Image.ids]
  · simp [Image.ids]

/-- C4, amended: for permutation parents and two distinct cut points, `lo` the smaller and
`hi` the larger, the positions of the child outside `[lo, hi]` (`[0, lo)` followed by
`(hi, n)`) hold exactly the ids of parent2 that the child does not hold in `[lo, hi]`, in
ascending order of the ids. -/
theorem order1_rest_sorted [Inhabited β] (n c1 c2 : Nat)
    (child child2 parent1 parent2 : Image β)
    (hp1 : parent1.IsPermutation n) (hp2 : parent2.IsPermutation n)
    (_hc : c1 ≠ c2) (h1 : c1 < n) (h2 : c2 < n) :
    ∃ c c', Order1Crossover n c1 c2 child child2 parent1 parent2 = some (c, c') ∧
      List.Sorted (· < ·) (c.ids.take (min c1 c2) ++ c.ids.drop (max c1 c2 + 1)) ∧
      List.Perm (c.ids.take (min c1 c2) ++ c.ids.drop (max c1 c2 + 1))
        (parent2.ids.filter (fun x => decide
          (x ∉ (c.ids.drop (min c1 c2)).take (max c1 c2 - min c1 c2 + 1)))) := by
  obtain ⟨c, X, hc, hids, hXlen, hsorted, hperm⟩ :=
    order1_ids n c1 c2 child child2 parent1 parent2 hp1 hp2 h1 h2
  have hlohi : min c1 c2 ≤ max c1 c2 := le_trans (min_le_left c1 c2) (le_max_left c1 c2)
  have hhi : max c1 c2 < n := max_lt h1 h2
  have hl1 : parent1.ids.length = n := by simpa using hp1.length_eq
  generalize hlo : min c1 c2 = lo at *
  generalize hhi' : max c1 c2 = hi at *
  have htl : (X.take lo).length = lo := by rw [List.length_take]; omega
  have hsl : (parent1.ids.take (hi - lo + 1)).length = hi - lo + 1 := by
    rw [List.length_take]; omega
  have e1 : c.ids.take lo = X.take lo := by
    rw [hids, List.append_assoc, List.take_left' htl]
  have e2 : c.ids.drop (hi + 1) = X.drop lo := by
    rw [hids]
    exact List.drop_left' (by rw [List.length_append, htl, hsl]; omega)
  have e3 : (c.ids.drop lo).take (hi - lo + 1) = parent1.ids.take (hi - lo + 1) := by
    rw [hids, List.append_assoc, List.drop_left' htl, List.take_left' hsl]
  refine ⟨c, child2, hc, ?_, ?_⟩
  · rw [e1, e2, List.take_append_drop]
    exact hsorted
  · rw [e1, e2, e3, List.take_append_drop]
    exact hperm

/-- Witness for the amended C4: parents `[0, 1, 2, 3]` and `[3, 2, 1, 0]`, cut points `0`
and `1`. -/
theorem order1_rest_sorted_witness :
    ∃ c c', Order1Crossover 4 0 1 (⟨[], 0⟩ : Image Unit) ⟨[], 0⟩
        ⟨[(0, ()), (1, ()), (2, ()), (3, ())], 0⟩
        ⟨[(3, ()), (2, ()), (1, ()), (0, ())], 0⟩ = some (c, c') ∧
      List.Sorted (· < ·) (c.ids.take (min 0 1) ++ c.ids.drop (max 0 1 + 1)) ∧
      List.Perm (c.ids.take (min 0 1) ++ c.ids.drop (max 0 1 + 1))
        ((⟨[(3, ()), (2, ()), (1, ()), (0, ())], 0⟩ : Image Unit).ids.filter (fun x => decide
          (x ∉ (c.ids.drop (min 0 1)).take (max 0 1 - min 0 1 + 1)))) :=
  order1_rest_sorted 4 0 1 ⟨[], 0⟩ ⟨[], 0⟩ ⟨[(0, ()), (1, ()), (2, ()), (3, ())], 0⟩
    ⟨[(3, ()), (2, ()), (1, ()), (0, ())], 0⟩
    (by simp [Image.IsPermutation, Image.ids]; decide)
    (by simp [Image.IsPermutation, Image.ids]; decide) (by decide) (by decide) (by decide)


/-! ## Mutation: permutation validity and locality -/

theorem singleSwap_eq (child : Image β) (a b : Nat) (ha : a < child.images.length)
    (hb : b < child.images.length) :
    SingleSwapMutation a b child =
      some { child with images := (child.images.set a child.images[b]).set b child.images[a] } := by
  simp [SingleSwapMutation, List.getElem?_eq_getElem ha, List.getElem?_eq_getElem hb]

theorem inversion_eq (child : Image β) (a b : Nat) (ha : a < child.images.length)
    (hb : b < child.images.length) :
    InversionMutation a b child =
      some { child with images := child.images.take (min a b) ++
        ((child.images.drop (min a b)).take (max a b - min a b)).reverse ++
        child.images.drop (max a b) } := by
  have h1 : min a b ≤ max a b := le_trans (min_le_left a b) (le_max_left a b)
  have h2 : max a b ≤ child.images.length := max_le (le_of_lt ha) (le_of_lt hb)
  simp [InversionMutation, reverseRange_eq _ _ _ h1 h2]

/-- C6: a candidate whose tile ids are a permutation of `0, ..., n-1` is, after
`SingleSwapMutation` and after `InversionMutation` at two distinct positions below `n`,
again a candidate of `n` tile ids that are a permutation of `0, ..., n-1`. -/
theorem mutation_preserves_permutation (n : Nat) (child : Image β) (a b : Nat)
    (hperm : child.IsPermutation n) (_hab : a ≠ b) (ha : a < n) (hb : b < n) :
    (∃ r, SingleSwapMutation a b child = some r ∧ r.IsPermutation n ∧ r.ids.length = n) ∧
    (∃ r, InversionMutation a b child = some r ∧ r.IsPermutation n ∧ r.ids.length = n) := by
  have hlen : child.images.length = n := by
    have h := hperm.length_eq
    simpa [Image.ids] using h
  have ha1 : a < child.images.length := by omega
  have hb1 : b < child.images.length := by omega
  constructor
  · refine ⟨_, singleSwap_eq child a b ha1 hb1, ?_, ?_⟩
    · have hp : List.Perm ((child.images.set a child.images[b]).set b child.images[a])
          child.images :=
        swap_perm child.images a b _ _ (List.getElem?_eq_getElem ha1)
          (List.getElem?_eq_getElem hb1)
      exact (hp.map Prod.fst).trans hperm
    · simp [Image.ids, hlen]
  · have h1 : min a b ≤ max a b := le_trans (min_le_left a b) (le_max_left a b)
    have hp := reverseRange_perm child.images (min a b) (max a b) h1
    refine ⟨_, inversion_eq child a b ha1 hb1, (hp.map Prod.fst).trans hperm, ?_⟩
    have h := (hp.map Prod.fst).length_eq
    simp only [Image.ids]
    rw [h]
    simp [hlen]

/-- Witness for C6: the candidate `[2, 0, 1]` mutated at positions `0` and `2`. -/
theorem mutation_preserves_permutation_witness :
    (∃ r, SingleSwapMutation 0 2 (⟨[(2, ()), (0, ()), (1, ())], 0⟩ : Image Unit) = some r ∧
      r.IsPermutation 3 ∧ r.ids.length = 3) ∧
    (∃ r, InversionMutation 0 2 (⟨[(2, ()), (0, ()), (1, ())], 0⟩ : Image Unit) = some r ∧
      r.IsPermutation 3 ∧ r.ids.length = 3) :=
  mutation_preserves_permutation 3 ⟨[(2, ()), (0, ()), (1, ())], 0⟩ 0 2
    (by simp [Image.IsPermutation, Image.ids]; decide) (by decide) (by decide) (by decide)

/-- C7: on a candidate with pairwise distinct tile ids, `SingleSwapMutation` at two
distinct positions `a`, `b` inside the candidate returns a candidate of the same length
that holds at `a` the old entry of `b`, at `b` the old entry of `a`, at every other
position the old entry, and whose tile id differs from the old one exactly at `a` and
`b`. -/
theorem singleSwap_changes_exactly_two (child : Image β) (a b : Nat)
    (hnd : child.ids.Nodup) (hab : a ≠ b) (ha : a < child.images.length)
    (hb : b < child.images.length) :
    ∃ r, SingleSwapMutation a b child = some r ∧
      r.images.length = child.images.length ∧
      r.images[a]? = child.images[b]? ∧
      r.images[b]? = child.images[a]? ∧
      (∀ i, i ≠ a → i ≠ b → r.images[i]? = child.images[i]?) ∧
      (∀ i, r.ids[i]? ≠ child.ids[i]? ↔ i = a ∨ i = b) := by
  refine ⟨_, singleSwap_eq child a b ha hb, by simp, ?_, ?_, ?_, ?_⟩
  · simp [List.getElem?_set, hab, ha, Ne.symm hab]
  · simp [List.getElem?_set, hb]
  · intro i hia hib
    simp [List.getElem?_set, Ne.symm hia, Ne.symm hib]
  · have hida : a < child.ids.length := by simpa [Image.ids] using ha
    have hidb : b < child.ids.length := by simpa [Image.ids] using hb
    have hne : child.ids[a] ≠ child.ids[b] := fun h => hab ((hnd.getElem_inj_iff).mp h)
    have hgeta : child.ids[a] = (child.images[a]).1 := by simp [Image.ids]
    have hgetb : child.ids[b] = (child.images[b]).1 := by simp [Image.ids]
    intro i
    by_cases hia : i = a
    · subst hia
      simp only [Image.ids, true_or, iff_true, List.getElem?_map, List.getElem?_set]
      simp [Ne.symm hab, hab, ha, hb]
      intro h
      exact hne (by rw [hgeta, hgetb, h])
    · by_cases hib : i = b
      · subst hib
        simp only [Image.ids, or_true, iff_true, List.getElem?_map, List.getElem?_set]
        simp [ha, hb]
        intro h
        exact hne (by rw [hgeta, hgetb, h])
      · simp [Image.ids, List.getElem?_set, Ne.symm hia, Ne.symm hib, hia, hib]

/-- Witness for C7: the candidate `[2, 0, 1]` swapped at positions `0` and `2`. -/
theorem singleSwap_changes_exactly_two_witness :
    ∃ r, SingleSwapMutation 0 2 (⟨[(2, ()), (0, ()), (1, ())], 0⟩ : Image Unit) = some r ∧
      r.images.length = 3 ∧
      r.images[0]? = some (1, ()) ∧
      r.images[2]? = some (2, ()) ∧
      (∀ i, i ≠ 0 → i ≠ 2 → r.images[i]? =
        (⟨[(2, ()), (0, ()), (1, ())], 0⟩ : Image Unit).images[i]?) ∧
      (∀ i, r.ids[i]? ≠ (⟨[(2, ()), (0, ()), (1, ())], 0⟩ : Image Unit).ids[i]? ↔
        i = 0 ∨ i = 2) :=
  singleSwap_changes_exactly_two ⟨[(2, ()), (0, ()), (1, ())], 0⟩ 0 2
    (by simp [Image.ids]) (by decide) (by simp) (by simp)

/-- C8, refuted as stated: on the candidate `[0, 1, 2]` with the positions `0` and `2`
(`lo = 0`, `hi = 2`) `InversionMutation` returns `[1, 0, 2]`, so position `lo = 0` does
not keep its entry. -/
theorem inversion_changes_lower_position :
    ∃ r, InversionMutation 0 2 (⟨[(0, ()), (1, ()), (2, ())], 0⟩ : Image Unit) = some r ∧
      r.ids = [1, 0, 2] ∧
      ¬ (∀ i, (i ≤ min 0 2 ∨ i ≥ max 0 2) →
          r.images[i]? = (⟨[(0, ()), (1, ()), (2, ())], 0⟩ : Image Unit).images[i]?) := by
  refine ⟨⟨[(1, ()), (0, ()), (2, ())], 0⟩, ?_, ?_, ?_⟩
  · simp [InversionMutation, reverseRange]
  · simp [Image.ids]
  · intro h
    have h0 := h 0 (Or.inl (by decide))
    simp at h0

/-- C8, amended: `InversionMutation` at two distinct positions inside the candidate,
`lo` the smaller and `hi` the larger, changes only positions of the half-open range
`lo ≤ i < hi`: every position `i < lo` or `i ≥ hi` holds the entry it held before. -/
theorem inversion_frame (child : Image β) (a b : Nat) (_hab : a ≠ b)
    (ha : a < child.images.length) (hb : b < child.images.length) :
    ∃ r, InversionMutation a b child = some r ∧
      r.images.length = child.images.length ∧
      ∀ i, (i < min a b ∨ max a b ≤ i) → r.images[i]? = child.images[i]? := by
  have h1 : min a b ≤ max a b := le_trans (min_le_left a b) (le_max_left a b)
  have h2 : max a b ≤ child.images.length := max_le (le_of_lt ha) (le_of_lt hb)
  have hp := reverseRange_perm child.images (min a b) (max a b) h1
  refine ⟨_, inversion_eq child a b ha hb, hp.length_eq, ?_⟩
  intro i hi
  simp only
  rcases hi with hi | hi
  · rw [List.append_assoc, List.getElem?_append_left (by simp; omega)]
    rw [List.getElem?_take_of_lt hi]
  · rw [List.getElem?_append_right (by simp; omega)]
    simp only [List.length_append, List.length_take, List.length_reverse, List.length_drop,
      List.getElem?_drop]
    congr 1
    omega

/-- Witness for the amended C8: the candidate `[0, 1, 2]` inverted at positions `0`, `2`. -/
theorem inversion_frame_witness :
    ∃ r, InversionMutation 0 2 (⟨[(0, ()), (1, ()), (2, ())], 0⟩ : Image Unit) = some r ∧
      r.images.length = 3 ∧
      ∀ i, (i < min 0 2 ∨ max 0 2 ≤ i) →
        r.images[i]? = (⟨[(0, ()), (1, ()), (2, ())], 0⟩ : Image Unit).images[i]? :=
  inversion_frame ⟨[(0, ()), (1, ()), (2, ())], 0⟩ 0 2 (by decide) (by simp) (by simp)


/-- C11, the code at the failing input: for a population with the fitness values `1, 5, 3`
and `nSelect = 2`, `nBest = 2`, the elites are the candidates of fitness `5` and `3`, and
`best = parents[nSelect+nBest-1]` is the last of them, of fitness `3`, while the maximum
fitness over the population is `5`. -/
theorem selectParents_best_failing_input :
    ∃ parents best, SelectParents
        ([⟨[], 1⟩, ⟨[], 5⟩, ⟨[], 3⟩] : List (Image Unit)) (fun _ => 0) 2 2 0 =
          some (parents, best) ∧
      parents.map (fun p => p.fitness) = [1, 1, 5, 3] ∧
      best.fitness = 3 ∧
      ∃ g ∈ ([⟨[], 1⟩, ⟨[], 5⟩, ⟨[], 3⟩] : List (Image Unit)), best.fitness < g.fitness := by
  refine ⟨[⟨[], 1⟩, ⟨[], 1⟩, ⟨[], 5⟩, ⟨[], 3⟩], ⟨[], 3⟩, ?_, ?_, ?_, ?_⟩
  · rw [selectParents_eq _ ⟨[], 0⟩ _ _ _ _ (by decide) (by simp)]
    have hw : WeightedRandomChoice [FitnessFunc 1 0, FitnessFunc 5 0, FitnessFunc 3 0] 0 = 0 := by
      norm_num [WeightedRandomChoice, weightedLoop, FitnessFunc]
    have hs : SortIndexes (([⟨[], 1⟩, ⟨[], 5⟩, ⟨[], 3⟩] : List (Image Unit)).map
        (fun g => FitnessFunc g.fitness 0)) = [1, 2, 0] := by
      norm_num [SortIndexes, FitnessFunc, List.range, List.range.loop, List.insertionSort,
        List.orderedInsert]
    rw [hs]
    simp [hw, List.range, List.range.loop]
  · simp
  · rfl
  · exact ⟨⟨[], 5⟩, by simp, by norm_num⟩

/-! ## The generation loop -/

/-- C12: for an even `generationSize`, a parent pool of at least two candidates whose
indices are drawn inside the pool, re-draw loops that end within the fuel and operators
that return on the pool, `NewGeneration` finishes after exactly `generationSize/2`
crossover calls, having written two children per call at the indices
`0, ..., generationSize-1`, all below `generationSize`; it leaves a population of exactly
`generationSize` members, which holds at the indices `2k` and `2k+1` the two children of
pass `k`. -/
theorem newGeneration_even (generationSize : Nat) (blank : Image β)
    (parents : List (Image β)) (fresh : Image β) (put : Image β → Image β)
    (crossover : Nat → Image β → Image β → Image β → Image β → Option (Image β × Image β))
    (mutation : Nat → Image β → Option (Image β)) (draws : Nat → PassDraws) (fuel : Nat)
    (heven : generationSize % 2 = 0) (_hpool : 2 ≤ parents.length)
    (hd1 : ∀ k, (draws k).parent1Index < parents.length)
    (hd2 : ∀ k j, (draws k).parent2Index j < parents.length)
    (hredraw : ∀ k, ∃ j, j < fuel ∧ (draws k).parent2Index j ≠ (draws k).parent1Index)
    (hops : ∀ k p1 p2, p1 ∈ parents → p2 ∈ parents →
      ∃ c1 c2, crossover k fresh fresh p1 p2 = some (c1, c2) ∧
        (∃ m1, mutation (2 * k) c1 = some m1) ∧ (∃ m2, mutation (2 * k + 1) c2 = some m2))
    (hfuel : generationSize / 2 + 1 ≤ fuel) :
    ∃ tr, NewGeneration generationSize blank parents fresh put crossover mutation draws fuel =
        (tr, Outcome.finished) ∧
      tr.crossoverCalls = generationSize / 2 ∧
      tr.writes = List.range generationSize ∧
      tr.writes.length = 2 * tr.crossoverCalls ∧
      (∀ i ∈ tr.writes, i < generationSize) ∧
      tr.newGeneration.length = generationSize ∧
      (∀ k, k < generationSize / 2 → ∃ a b,
        passChildren parents fresh put crossover mutation draws fuel k = some (a, b) ∧
        tr.newGeneration[2 * k]? = some a ∧ tr.newGeneration[2 * k + 1]? = some b) := by
  obtain ⟨tr, h1, h2, h3, h4, _, _, h7⟩ := newGenerationLoop_even_children generationSize
    parents fresh put crossover mutation draws fuel hd1 hd2 hredraw hops (generationSize / 2)
    fuel 0
    { newGeneration := List.replicate generationSize blank
      iter := 0
      crossoverCalls := 0
      writes := [] }
    (by simp) (by simp only; omega) hfuel
  have hw : tr.writes = List.range generationSize := by
    rw [h3, List.range_eq_range']
    simp only [List.nil_append]
    congr 1
    omega
  refine ⟨tr, h1, by simpa using h2, hw, ?_, ?_, h4, ?_⟩
  · rw [hw, h2]
    simp only [List.length_range]
    omega
  · intro i hi
    rw [hw] at hi
    exact List.mem_range.mp hi
  · intro k hk
    obtain ⟨a, b, hch, ha, hb⟩ := h7 k hk
    simp only [Nat.zero_add] at hch ha hb
    exact ⟨a, b, hch, ha, hb⟩

/-- Witness for C12: `generationSize = 4`, the pool `[0, 1, 2]`, `[2, 0, 1]`, cycle
crossover and single-swap mutation of the first child. -/
theorem newGeneration_even_witness :
    ∃ tr, NewGeneration 4 (⟨[], 0⟩ : Image Unit)
        [⟨[(0, ()), (1, ()), (2, ())], 0⟩, ⟨[(2, ()), (0, ()), (1, ())], 0⟩] ⟨[], 0⟩ id
        (fun _ => CycleCrossover 3 3) (fun _ => SingleSwapMutation 0 1)
        (fun _ => ⟨0, fun j => j % 2, true, false⟩) 3 = (tr, Outcome.finished) ∧
      tr.crossoverCalls = 4 / 2 ∧
      tr.writes = List.range 4 ∧
      tr.writes.length = 2 * tr.crossoverCalls ∧
      (∀ i ∈ tr.writes, i < 4) ∧
      tr.newGeneration.length = 4 ∧
      (∀ k, k < 4 / 2 → ∃ a b,
        passChildren
          [⟨[(0, ()), (1, ()), (2, ())], 0⟩, ⟨[(2, ()), (0, ()), (1, ())], 0⟩] ⟨[], 0⟩ id
          (fun _ => CycleCrossover 3 3) (fun _ => SingleSwapMutation 0 1)
          (fun _ => ⟨0, fun j => j % 2, true, false⟩) 3 k = some (a, b) ∧
        tr.newGeneration[2 * k]? = some a ∧ tr.newGeneration[2 * k + 1]? = some b) :=
  newGeneration_even 4 ⟨[], 0⟩
    [⟨[(0, ()), (1, ()), (2, ())], 0⟩, ⟨[(2, ()), (0, ()), (1, ())], 0⟩] ⟨[], 0⟩ id
    (fun _ => CycleCrossover 3 3) (fun _ => SingleSwapMutation 0 1)
    (fun _ => ⟨0, fun j => j % 2, true, false⟩) 3 (by decide) (by simp) (by simp)
    (fun _ j => by simpa using Nat.mod_lt j (by decide : 0 < 2))
    (fun _ => ⟨1, by decide, by simp⟩)
    (fun _ p1 p2 h1 h2 => by
      simp only [List.mem_cons, List.mem_singleton, List.not_mem_nil, or_false] at h1 h2
      rcases h1 with rfl | rfl <;> rcases h2 with rfl | rfl <;>
        exact ⟨_, _, rfl, ⟨_, rfl⟩, ⟨_, rfl⟩⟩)
    (by decide)

/-- C13, refuted as stated: with the odd `generationSize = 3` and a pool of two candidates
`NewGeneration` is not rejected up front: it makes two crossover calls and writes children
at the indices `0, 1, 2` before the write at index `3` leaves the vector. -/
theorem newGeneration_odd_writes_children :
    (NewGeneration 3 (⟨[], 0⟩ : Image Unit)
        [⟨[(0, ()), (1, ()), (2, ())], 0⟩, ⟨[(2, ()), (0, ()), (1, ())], 0⟩] ⟨[], 0⟩ id
        (fun _ => CycleCrossover 3 3) (fun _ => SingleSwapMutation 0 1)
        (fun _ => ⟨0, fun j => j % 2, true, false⟩) 3).2 = Outcome.undefinedBehaviour ∧
    (NewGeneration 3 (⟨[], 0⟩ : Image Unit)
        [⟨[(0, ()), (1, ()), (2, ())], 0⟩, ⟨[(2, ()), (0, ()), (1, ())], 0⟩] ⟨[], 0⟩ id
        (fun _ => CycleCrossover 3 3) (fun _ => SingleSwapMutation 0 1)
        (fun _ => ⟨0, fun j => j % 2, true, false⟩) 3).1.crossoverCalls = 2 ∧
    (NewGeneration 3 (⟨[], 0⟩ : Image Unit)
        [⟨[(0, ()), (1, ()), (2, ())], 0⟩, ⟨[(2, ()), (0, ()), (1, ())], 0⟩] ⟨[], 0⟩ id
        (fun _ => CycleCrossover 3 3) (fun _ => SingleSwapMutation 0 1)
        (fun _ => ⟨0, fun j => j % 2, true, false⟩) 3).1.writes = [0, 1, 2] := by
  refine ⟨?_, ?_, ?_⟩ <;> rfl

/-- C13, amended: `NewGeneration` validates nothing. With an odd `generationSize` (pool of
at least two candidates, operators that return) it makes `(generationSize+1)/2` crossover
calls and writes children at all indices `0, ..., generationSize-1` before the write at
index `generationSize` leaves the vector. With a pool of fewer than two candidates (and
`generationSize > 0`) every drawn parent index is `0`, so the re-draw loop does not end
within any fuel; no child is written and no error is raised. -/
theorem newGeneration_no_validation (generationSize : Nat) (blank : Image β)
    (parents : List (Image β)) (fresh : Image β) (put : Image β → Image β)
    (crossover : Nat → Image β → Image β → Image β → Image β → Option (Image β × Image β))
    (mutation : Nat → Image β → Option (Image β)) (draws : Nat → PassDraws) (fuel : Nat) :
    (generationSize % 2 = 1 → 2 ≤ parents.length →
      (∀ k, (draws k).parent1Index < parents.length) →
      (∀ k j, (draws k).parent2Index j < parents.length) →
      (∀ k, ∃ j, j < fuel ∧ (draws k).parent2Index j ≠ (draws k).parent1Index) →
      (∀ k p1 p2, p1 ∈ parents → p2 ∈ parents →
        ∃ c1 c2, crossover k fresh fresh p1 p2 = some (c1, c2) ∧
          (∃ m1, mutation (2 * k) c1 = some m1) ∧ (∃ m2, mutation (2 * k + 1) c2 = some m2)) →
      generationSize / 2 + 1 ≤ fuel →
      ∃ tr, NewGeneration generationSize blank parents fresh put crossover mutation draws fuel =
          (tr, Outcome.undefinedBehaviour) ∧
        tr.crossoverCalls = (generationSize + 1) / 2 ∧
        tr.writes = List.range generationSize) ∧
    (parents.length < 2 → 0 < generationSize →
      (∀ k, (draws k).parent1Index ≤ parents.length - 1) →
      (∀ k j, (draws k).parent2Index j ≤ parents.length - 1) →
      NewGeneration generationSize blank parents fresh put crossover mutation draws fuel =
        ({ newGeneration := List.replicate generationSize blank
           iter := 0
           crossoverCalls := 0
           writes := [] }, Outcome.outOfFuel)) := by
  constructor
  · intro hodd _ hd1 hd2 hredraw hops hfuel
    obtain ⟨tr, h1, h2, h3, _, _⟩ := newGenerationLoop_odd generationSize parents fresh put
      crossover mutation draws fuel hd1 hd2 hredraw hops (generationSize / 2) fuel 0
      { newGeneration := List.replicate generationSize blank
        iter := 0
        crossoverCalls := 0
        writes := [] }
      (by simp) (by simp only; omega) hfuel
    refine ⟨tr, h1, by rw [h2]; simp only; omega, ?_⟩
    rw [h3, List.range_eq_range']
    simp only [List.nil_append]
    congr 1
    omega
  · intro hpool hpos hd1 hd2
    unfold NewGeneration
    cases fuel with
    | zero => rfl
    | succ p =>
      rw [NewGenerationLoop, if_neg (by simp only; omega)]
      have h0 : (draws 0).parent1Index = 0 := by have := hd1 0; omega
      rw [redraw_none (draws 0).parent1Index (draws 0).parent2Index
        (fun j => by have := hd2 0 j; omega)]

/-- Witness for the amended C13: `generationSize = 3` with the pool `[0, 1, 2]`,
`[2, 0, 1]`, and `generationSize = 4` with the pool `[0, 1, 2]` alone. -/
theorem newGeneration_no_validation_witness :
    (∃ tr, NewGeneration 3 (⟨[], 0⟩ : Image Unit)
        [⟨[(0, ()), (1, ()), (2, ())], 0⟩, ⟨[(2, ()), (0, ()), (1, ())], 0⟩] ⟨[], 0⟩ id
        (fun _ => CycleCrossover 3 3) (fun _ => SingleSwapMutation 0 1)
        (fun _ => ⟨0, fun j => j % 2, true, false⟩) 3 = (tr, Outcome.undefinedBehaviour) ∧
      tr.crossoverCalls = (3 + 1) / 2 ∧
      tr.writes = List.range 3) ∧
    NewGeneration 4 (⟨[], 0⟩ : Image Unit) [⟨[(0, ()), (1, ()), (2, ())], 0⟩] ⟨[], 0⟩ id
        (fun _ => CycleCrossover 3 3) (fun _ => SingleSwapMutation 0 1)
        (fun _ => ⟨0, fun _ => 0, true, false⟩) 3 =
      ({ newGeneration := List.replicate 4 ⟨[], 0⟩
         iter := 0
         crossoverCalls := 0
         writes := [] }, Outcome.outOfFuel) :=
  ⟨(newGeneration_no_validation 3 ⟨[], 0⟩
      [⟨[(0, ()), (1, ()), (2, ())], 0⟩, ⟨[(2, ()), (0, ()), (1, ())], 0⟩] ⟨[], 0⟩ id
      (fun _ => CycleCrossover 3 3) (fun _ => SingleSwapMutation 0 1)
      (fun _ => ⟨0, fun j => j % 2, true, false⟩) 3).1 (by decide) (by simp) (by simp)
      (fun _ j => by simpa using Nat.mod_lt j (by decide : 0 < 2))
      (fun _ => ⟨1, by decide, by simp⟩)
      (fun _ p1 p2 h1 h2 => by
        simp only [List.mem_cons, List.mem_singleton, List.not_mem_nil, or_false] at h1 h2
        rcases h1 with rfl | rfl <;> rcases h2 with rfl | rfl <;>
          exact ⟨_, _, rfl, ⟨_, rfl⟩, ⟨_, rfl⟩⟩)
      (by decide),
   (newGeneration_no_validation 4 ⟨[], 0⟩ [⟨[(0, ()), (1, ()), (2, ())], 0⟩] ⟨[], 0⟩ id
      (fun _ => CycleCrossover 3 3) (fun _ => SingleSwapMutation 0 1)
      (fun _ => ⟨0, fun _ => 0, true, false⟩) 3).2 (by simp) (by decide) (by simp)
      (by simp)⟩

/-! ## Fitness of a perfect match -/

/-- C15: `Order1Crossover` assigns only its first child. Whenever the call returns, for
any parents, cut points and initial children, its second child is the value `child2` had
on entry; and for permutation parents and distinct cut points below `n` the call does
return, with `child2` as second child. -/
theorem order1_second_child_unchanged [Inhabited β] (n c1 c2 : Nat)
    (child child2 parent1 parent2 : Image β) :
    (∀ c c', Order1Crossover n c1 c2 child child2 parent1 parent2 = some (c, c') →
      c' = child2) ∧
    (parent1.IsPermutation n → parent2.IsPermutation n → c1 ≠ c2 → c1 < n → c2 < n →
      ∃ c, Order1Crossover n c1 c2 child child2 parent1 parent2 = some (c, child2)) := by
  constructor
  · intro c c' h
    unfold Order1Crossover at h
    simp only at h
    split at h
    · split at h
      · split at h
        · exact absurd h (by simp)
        · split at h
          · simp only [Option.some.injEq, Prod.mk.injEq] at h
            exact h.2.symm
          · exact absurd h (by simp)
      · exact absurd h (by simp)
    · exact absurd h (by simp)
  · intro hp1 hp2 _ h1 h2
    exact ⟨_, order1_eq n c1 c2 child child2 parent1 parent2 hp1 hp2 h1 h2⟩

/-- Witness for C15: parents `[0, 1, 2]` and `[2, 1, 0]`, cut points `1` and `2`, and a
second child that holds `[1, 0, 2]` on entry. -/
theorem order1_second_child_unchanged_witness :
    ∃ c, Order1Crossover 3 1 2 (⟨[], 0⟩ : Image Unit) ⟨[(1, ()), (0, ()), (2, ())], 7⟩
        ⟨[(0, ()), (1, ()), (2, ())], 0⟩ ⟨[(2, ()), (1, ()), (0, ())], 0⟩ =
      some (c, ⟨[(1, ()), (0, ()), (2, ())], 7⟩) :=
  (order1_second_child_unchanged 3 1 2 ⟨[], 0⟩ ⟨[(1, ()), (0, ()), (2, ())], 7⟩
    ⟨[(0, ()), (1, ()), (2, ())], 0⟩ ⟨[(2, ()), (1, ()), (0, ())], 0⟩).2
    (by simp [Image.IsPermutation, Image.ids]; decide)
    (by simp [Image.IsPermutation, Image.ids]; decide) (by decide) (by decide) (by decide)

/-! ## Inversion: the reversed range -/

/-- C16: `InversionMutation` at two distinct positions inside the candidate, `lo` the
smaller and `hi` the larger, reverses exactly the half-open range `[lo, hi)`: the result
holds at `lo ≤ i < hi` the old entry of position `lo + hi - 1 - i` and at every other
position the old entry; the entry at `hi` stays, and for adjacent positions
(`hi = lo + 1`) the candidate is unchanged. -/
theorem inversion_reverses_half_open (child : Image β) (a b : Nat) (_hab : a ≠ b)
    (ha : a < child.images.length) (hb : b < child.images.length) :
    ∃ r, InversionMutation a b child = some r ∧
      r.images.length = child.images.length ∧
      (∀ i, min a b ≤ i → i < max a b →
        r.images[i]? = child.images[min a b + max a b - 1 - i]?) ∧
      (∀ i, (i < min a b ∨ max a b ≤ i) → r.images[i]? = child.images[i]?) ∧
      r.images[max a b]? = child.images[max a b]? ∧
      (max a b = min a b + 1 → r = child) := by
  have h1 : min a b ≤ max a b := le_trans (min_le_left a b) (le_max_left a b)
  have h2 : max a b ≤ child.images.length := max_le (le_of_lt ha) (le_of_lt hb)
  have hp := reverseRange_perm child.images (min a b) (max a b) h1
  have hout : ∀ i, (i < min a b ∨ max a b ≤ i) →
      (child.images.take (min a b) ++
        ((child.images.drop (min a b)).take (max a b - min a b)).reverse ++
        child.images.drop (max a b))[i]? = child.images[i]? := by
    intro i hi
    rcases hi with hi | hi
    · rw [List.append_assoc, List.getElem?_append_left (by simp; omega)]
      rw [List.getElem?_take_of_lt hi]
    · rw [List.getElem?_append_right (by simp; omega)]
      simp only [List.length_append, List.length_take, List.length_reverse, List.length_drop,
        List.getElem?_drop]
      congr 1
      omega
  refine ⟨_, inversion_eq child a b ha hb, hp.length_eq, ?_, hout, hout _ (Or.inr (le_refl _)), ?_⟩
  · intro i hlo hhi
    simp only
    rw [List.getElem?_append_left (by simp; omega),
      List.getElem?_append_right (by simp; omega)]
    simp only [List.length_take]
    rw [List.getElem?_reverse (by simp; omega)]
    simp only [List.length_take, List.length_drop]
    rw [List.getElem?_take_of_lt (by omega), List.getElem?_drop]
    congr 1
    omega
  · intro hadj
    have hone : max a b - min a b = 1 := by omega
    have hlist : child.images.take (min a b) ++
        ((child.images.drop (min a b)).take (max a b - min a b)).reverse ++
        child.images.drop (max a b) = child.images := by
      have hrev : ((child.images.drop (min a b)).take (max a b - min a b)).reverse =
          (child.images.drop (min a b)).take (max a b - min a b) := by
        rw [hone]
        cases child.images.drop (min a b) with
        | nil => rfl
        | cons x t => simp
      rw [hrev]
      exact reverseRange_split child.images (min a b) (max a b) h1
    simp only [hlist]

/-- Witness for C16: the candidate `[0, 1, 2, 3]` inverted at positions `3` and `0`. -/
theorem inversion_reverses_half_open_witness :
    ∃ r, InversionMutation 3 0 (⟨[(0, ()), (1, ()), (2, ()), (3, ())], 0⟩ : Image Unit) =
        some r ∧
      r.images.length = 4 ∧
      (∀ i, min 3 0 ≤ i → i < max 3 0 → r.images[i]? =
        (⟨[(0, ()), (1, ()), (2, ()), (3, ())], 0⟩ : Image Unit).images[min 3 0 + max 3 0 - 1 - i]?) ∧
      (∀ i, (i < min 3 0 ∨ max 3 0 ≤ i) → r.images[i]? =
        (⟨[(0, ()), (1, ()), (2, ()), (3, ())], 0⟩ : Image Unit).images[i]?) ∧
      r.images[max 3 0]? =
        (⟨[(0, ()), (1, ()), (2, ()), (3, ())], 0⟩ : Image Unit).images[max 3 0]? ∧
      (max 3 0 = min 3 0 + 1 →
        r = (⟨[(0, ()), (1, ()), (2, ()), (3, ())], 0⟩ : Image Unit)) :=
  inversion_reverses_half_open ⟨[(0, ()), (1, ()), (2, ()), (3, ())], 0⟩ 3 0 (by decide)
    (by simp) (by simp)

/-! ## The generation-index bias -/

theorem foldl_add_map_fitnessFunc (fitness : List ℚ) (g : Int) (c : ℚ) :
    (fitness.map (fun x => FitnessFunc x g)).foldl (· + ·) c =
      c + fitness.sum / 100 + fitness.length * ((g : ℚ) * (2 / 1000)) := by
  induction fitness generalizing c with
  | nil => simp
  | cons x t ih =>
    simp only [List.map_cons, List.foldl_cons, List.sum_cons, List.length_cons]
    rw [ih]
    unfold FitnessFunc
    push_cast
    ring

theorem accumulate_map_fitnessFunc (fitness : List ℚ) (g : Int) :
    accumulate (fitness.map (fun x => FitnessFunc x g)) =
      fitness.sum / 100 + fitness.length * ((g : ℚ) * (2 / 1000)) := by
  unfold accumulate
  rw [foldl_add_map_fitnessFunc]
  ring

/-- C17, refuted as stated: for the raw fitness values `100, 200` the share of the
candidate of fitness `200` is `2/3` in generation `0` and `3/5` in generation `500`, so it
decreases. -/
theorem wheelShare_decreases :
    wheelShare [100, 200] 200 0 = 2 / 3 ∧ wheelShare [100, 200] 200 500 = 3 / 5 ∧
      ¬ (wheelShare [100, 200] 200 0 ≤ wheelShare [100, 200] 200 500) := by
  have h0 : wheelShare [100, 200] 200 0 = 2 / 3 := by
    norm_num [wheelShare, FitnessFunc, accumulate]
  have h1 : wheelShare [100, 200] 200 500 = 3 / 5 := by
    norm_num [wheelShare, FitnessFunc, accumulate]
  refine ⟨h0, h1, ?_⟩
  rw [h0, h1]
  norm_num

/-- C17, amended: for a vector of positive raw fitness values, the share
`FitnessFunc f_max g / sum_k FitnessFunc f_k g` of a candidate of highest fitness is
non-increasing in the generation index `g ≥ 0` (the bias `g * 0.002` added to every score
flattens the wheel). -/
theorem wheelShare_antitone (fitness : List ℚ) (fmax : ℚ) (g g' : Int)
    (hpos : ∀ x ∈ fitness, 0 < x) (hmem : fmax ∈ fitness) (hmax : ∀ x ∈ fitness, x ≤ fmax)
    (hg : 0 ≤ g) (hgg : g ≤ g') :
    wheelShare fitness fmax g' ≤ wheelShare fitness fmax g := by
  unfold wheelShare
  rw [accumulate_map_fitnessFunc, accumulate_map_fitnessFunc]
  unfold FitnessFunc
  have hlen : 0 < fitness.length := List.length_pos_of_mem hmem
  have hlenq : (1 : ℚ) ≤ (fitness.length : ℚ) := by exact_mod_cast hlen
  have hsum_le : fitness.sum ≤ fitness.length * fmax := by
    have := List.sum_le_card_nsmul fitness fmax hmax
    simpa [nsmul_eq_mul] using this
  have hsum_pos : 0 < fitness.sum := List.sum_pos fitness hpos (List.ne_nil_of_mem hmem)
  have hgq : (0 : ℚ) ≤ (g : ℚ) := by exact_mod_cast hg
  have hggq : (g : ℚ) ≤ (g' : ℚ) := by exact_mod_cast hgg
  have hd : 0 < fitness.sum / 100 + fitness.length * ((g : ℚ) * (2 / 1000)) := by
    have : 0 ≤ (fitness.length : ℚ) * ((g : ℚ) * (2 / 1000)) := by positivity
    linarith [div_pos hsum_pos (by norm_num : (0 : ℚ) < 100)]
  have hd' : 0 < fitness.sum / 100 + fitness.length * ((g' : ℚ) * (2 / 1000)) := by
    have hg' : (0 : ℚ) ≤ (g' : ℚ) := le_trans hgq hggq
    have : 0 ≤ (fitness.length : ℚ) * ((g' : ℚ) * (2 / 1000)) := by positivity
    linarith [div_pos hsum_pos (by norm_num : (0 : ℚ) < 100)]
  rw [div_le_div_iff₀ hd' hd]
  have key : 0 ≤ ((g' : ℚ) - g) * (fitness.length * fmax - fitness.sum) :=
    mul_nonneg (sub_nonneg.mpr hggq) (sub_nonneg.mpr hsum_le)
  nlinarith [key]

/-- Witness for the amended C17: the fitness values `100, 200`, generations `0` and `500`. -/
theorem wheelShare_antitone_witness :
    wheelShare [100, 200] 200 500 ≤ wheelShare [100, 200] 200 0 :=
  wheelShare_antitone [100, 200] 200 0 500 (by simp) (by simp)
    (by intro x hx; simp at hx; rcases hx with rfl | rfl <;> norm_num) (by decide) (by decide)

/-! ## Order-1 crossover: independence of the arrangement of parent2 -/

theorem assignLoop_map {α γ : Type} (f : α → γ) (n dstOff srcOff : Nat) (src dst : List α) :
    (assignLoop n dstOff srcOff src dst).map (List.map f) =
      assignLoop n dstOff srcOff (src.map f) (dst.map f) := by
  induction n with
  | zero => simp [assignLoop]
  | succ n ih =>
    rw [assignLoop_succ, assignLoop_succ, ← ih]
    cases assignLoop n dstOff srcOff src dst with
    | none => rfl
    | some d =>
      simp only [Option.map_some', List.getElem?_map, List.length_map]
      cases src[n + srcOff]? with
      | none => rfl
      | some x =>
        by_cases hlt : n + dstOff < d.length
        · simp [hlt, List.map_set]
        · simp [hlt]

theorem sortImages_ids_congr (l l' : List (Tile β))
    (h : List.Perm (l.map Prod.fst) (l'.map Prod.fst)) :
    (SortImages l).map Prod.fst = (SortImages l').map Prod.fst := by
  have hs : ∀ m : List (Tile β), List.Sorted (· ≤ ·) ((SortImages m).map Prod.fst) := by
    intro m
    unfold List.Sorted
    rw [List.pairwise_map]
    exact sortImages_sorted m
  have hp : List.Perm ((SortImages l).map Prod.fst) ((SortImages l').map Prod.fst) :=
    (((sortImages_perm l).map Prod.fst).trans h).trans ((sortImages_perm l').map Prod.fst).symm
  exact List.eq_of_perm_of_sorted hp (hs l) (hs l')

theorem order1_rest_ids_congr (q q' fromParent1 : List (Tile β))
    (h : List.Perm (q.map Prod.fst) (q'.map Prod.fst)) :
    (SortImages (RemoveDuplicates q fromParent1)).map Prod.fst =
      (SortImages (RemoveDuplicates q' fromParent1)).map Prod.fst := by
  apply sortImages_ids_congr
  rw [removeDuplicates_ids, removeDuplicates_ids]
  exact h.filter _

theorem order1_ids_congr [Inhabited β] (n c1 c2 : Nat) (child child2 parent1 q q' : Image β)
    (h : List.Perm q.ids q'.ids) :
    (Order1Crossover n c1 c2 child child2 parent1 q).map (fun r => r.1.ids) =
      (Order1Crossover n c1 c2 child child2 parent1 q').map (fun r => r.1.ids) := by
  unfold Order1Crossover
  simp only
  cases assignLoop (max c1 c2 - min c1 c2 + 1) (min c1 c2) 0 parent1.images
      (List.replicate n ((0, default) : Tile β)) with
  | none => rfl
  | some i1 =>
    cases assignLoop (max c1 c2 - min c1 c2 + 1) 0 0 parent1.images
        (List.replicate (max c1 c2 - min c1 c2 + 1) ((0, default) : Tile β)) with
    | none => rfl
    | some fromParent1 =>
      simp only
      have hA := order1_rest_ids_congr q.images q'.images fromParent1 h
      generalize SortImages (RemoveDuplicates q.images fromParent1) = A at hA ⊢
      generalize SortImages (RemoveDuplicates q'.images fromParent1) = A' at hA ⊢
      have hlen : A.length = A'.length := by
        have := congrArg List.length hA
        simpa using this
      have h3 : (assignLoop (min c1 c2) 0 0 A i1).map (List.map Prod.fst) =
          (assignLoop (min c1 c2) 0 0 A' i1).map (List.map Prod.fst) := by
        rw [assignLoop_map, assignLoop_map, hA]
      cases hx : assignLoop (min c1 c2) 0 0 A i1 with
      | none =>
        cases hx' : assignLoop (min c1 c2) 0 0 A' i1 with
        | none => rfl
        | some i3' => rw [hx, hx'] at h3; simp at h3
      | some i3 =>
        cases hx' : assignLoop (min c1 c2) 0 0 A' i1 with
        | none => rw [hx, hx'] at h3; simp at h3
        | some i3' =>
          rw [hx, hx'] at h3
          simp only [Option.map_some', Option.some.injEq] at h3
          simp only
          rw [← hlen]
          by_cases hlo : A.length < min c1 c2
          · simp [hlo]
          · simp only [hlo, if_false]
            have h4 : (assignLoop (A.length - min c1 c2) (max c1 c2 + 1) (min c1 c2) A i3).map
                (List.map Prod.fst) =
                (assignLoop (A.length - min c1 c2) (max c1 c2 + 1) (min c1 c2) A' i3').map
                (List.map Prod.fst) := by
              rw [assignLoop_map, assignLoop_map, hA, h3]
            cases hy : assignLoop (A.length - min c1 c2) (max c1 c2 + 1) (min c1 c2) A i3 with
            | none =>
              cases hy' : assignLoop (A.length - min c1 c2) (max c1 c2 + 1) (min c1 c2) A' i3' with
              | none => rfl
              | some i4' => rw [hy, hy'] at h4; simp at h4
            | some i4 =>
              cases hy' : assignLoop (A.length - min c1 c2) (max c1 c2 + 1) (min c1 c2) A' i3' with
              | none => rw [hy, hy'] at h4; simp at h4
              | some i4' =>
                rw [hy, hy'] at h4
                simp only [Option.map_some', Option.some.injEq] at h4
                simp only [Option.map_some', Image.ids, h4]

/-- C18: for every parent1, two distinct cut points below `n` and two parents `q`, `q'`
whose tile ids are both permutations of `0, ..., n-1`, `Order1Crossover` with parent2 `q`
and with parent2 `q'` end alike, and when they return the two children have the same
tile-id sequence; for a permutation parent1 both calls return. -/
theorem order1_child_independent_of_parent2 [Inhabited β] (n c1 c2 : Nat)
    (child child2 parent1 q q' : Image β)
    (hq : q.IsPermutation n) (hq' : q'.IsPermutation n)
    (_hc : c1 ≠ c2) (h1 : c1 < n) (h2 : c2 < n) :
    (Order1Crossover n c1 c2 child child2 parent1 q).map (fun r => r.1.ids) =
        (Order1Crossover n c1 c2 child child2 parent1 q').map (fun r => r.1.ids) ∧
    (parent1.IsPermutation n →
      ∃ c c', Order1Crossover n c1 c2 child child2 parent1 q = some (c, child2) ∧
        Order1Crossover n c1 c2 child child2 parent1 q' = some (c', child2) ∧
        c.ids = c'.ids) := by
  have hcongr := order1_ids_congr n c1 c2 child child2 parent1 q q' (hq.trans hq'.symm)
  refine ⟨hcongr, ?_⟩
  intro hp1
  have e := order1_eq n c1 c2 child child2 parent1 q hp1 hq h1 h2
  have e' := order1_eq n c1 c2 child child2 parent1 q' hp1 hq' h1 h2
  refine ⟨_, _, e, e', ?_⟩
  rw [e, e'] at hcongr
  simpa using hcongr

/-- Witness for C18: parent1 `[1, 2, 0, 3]`, cut points `2` and `1`, and the parents
`[3, 2, 1, 0]` and `[0, 3, 1, 2]`. -/
theorem order1_child_independent_of_parent2_witness :
    (Order1Crossover 4 2 1 (⟨[], 0⟩ : Image Unit) ⟨[], 0⟩
        ⟨[(1, ()), (2, ()), (0, ()), (3, ())], 0⟩
        ⟨[(3, ()), (2, ()), (1, ()), (0, ())], 0⟩).map (fun r => r.1.ids) =
      (Order1Crossover 4 2 1 (⟨[], 0⟩ : Image Unit) ⟨[], 0⟩
        ⟨[(1, ()), (2, ()), (0, ()), (3, ())], 0⟩
        ⟨[(0, ()), (3, ()), (1, ()), (2, ())], 0⟩).map (fun r => r.1.ids) ∧
    ∃ c c', Order1Crossover 4 2 1 (⟨[], 0⟩ : Image Unit) ⟨[], 0⟩
          ⟨[(1, ()), (2, ()), (0, ()), (3, ())], 0⟩
          ⟨[(3, ()), (2, ()), (1, ()), (0, ())], 0⟩ = some (c, ⟨[], 0⟩) ∧
        Order1Crossover 4 2 1 (⟨[], 0⟩ : Image Unit) ⟨[], 0⟩
          ⟨[(1, ()), (2, ()), (0, ()), (3, ())], 0⟩
          ⟨[(0, ()), (3, ()), (1, ()), (2, ())], 0⟩ = some (c', ⟨[], 0⟩) ∧
        c.ids = c'.ids :=
  (fun h => ⟨h.1, h.2 (by simp [Image.IsPermutation, Image.ids]; decide)⟩)
    (order1_child_independent_of_parent2 4 2 1 ⟨[], 0⟩ ⟨[], 0⟩
      ⟨[(1, ()), (2, ()), (0, ()), (3, ())], 0⟩ ⟨[(3, ()), (2, ()), (1, ()), (0, ())], 0⟩
      ⟨[(0, ()), (3, ()), (1, ()), (2, ())], 0⟩
      (by simp [Image.IsPermutation, Image.ids]; decide)
      (by simp [Image.IsPermutation, Image.ids]; decide) (by decide) (by decide) (by decide))

/-! ## Cycle crossover: complementary children and termination of the search -/

/-- C19: for permutation parents (`n ≥ 1`), the position lists `l1` and `l2` that
`CycleCrossover` computes for child1 and for child2 hold the same positions, so at every
position of the list child1 has the id of parent1 and child2 the id of parent2, and at
every other position child1 has the id of parent2 and child2 the id of parent1. -/
theorem cycleCrossover_complementary (fuel n : Nat) (child1 child2 parent1 parent2 : Image β)
    (hn : 1 ≤ n) (hp1 : parent1.IsPermutation n) (hp2 : parent2.IsPermutation n)
    (hfuel : n ≤ fuel) :
    ∃ l1 l2 c1 c2,
      find parent1.ids parent2.ids 0 fuel (parent1.ids.getD 0 0) [] = some l1 ∧
      find parent2.ids parent1.ids 0 fuel (parent2.ids.getD 0 0) [] = some l2 ∧
      (∀ i, i ∈ l1 ↔ i ∈ l2) ∧
      CycleCrossover fuel n child1 child2 parent1 parent2 = some (c1, c2) ∧
      ∀ i, i < n →
        (i ∈ l1 → c1.ids[i]? = parent1.ids[i]? ∧ c2.ids[i]? = parent2.ids[i]?) ∧
        (i ∉ l1 → c1.ids[i]? = parent2.ids[i]? ∧ c2.ids[i]? = parent1.ids[i]?) := by
  have hi1 : parent1.ids.length = n := perm_range_length _ n hp1
  have hi2 : parent2.ids.length = n := perm_range_length _ n hp2
  have hs1 : parent1.ids[0]? = some (parent1.ids.getD 0 0) := by
    rw [List.getElem?_eq_getElem (by omega), List.getD_eq_getElem _ _ (by omega)]
  have hs2 : parent2.ids[0]? = some (parent2.ids.getD 0 0) := by
    rw [List.getElem?_eq_getElem (by omega), List.getD_eq_getElem _ _ (by omega)]
  obtain ⟨l1, _, hf1, _, _, _, _, _, hmem1, _⟩ :=
    find_spec parent1.ids parent2.ids n hp1 hp2 hn fuel hfuel _ hs1
  obtain ⟨l2, _, hf2, _, _, _, _, _, hmem2, _⟩ :=
    find_spec parent2.ids parent1.ids n hp2 hp1 hn fuel hfuel _ hs2
  obtain ⟨c1, c2, hc, _, _, h1in, h1out, h2in, h2out⟩ :=
    cycleCrossover_spec fuel n child1 child2 parent1 parent2 hp1 hp2 hn hfuel
  have hswap := inOrbit_swap_iff parent1.ids parent2.ids n hp1 hp2 hn
  refine ⟨l1, l2, c1, c2, hf1, hf2, ?_, hc, ?_⟩
  · intro i
    rw [hmem1 i, hmem2 i]
    exact hswap i
  · intro i _
    constructor
    · intro hi
      have ho1 := (hmem1 i).mp hi
      have ho2 := (hswap i).mp ho1
      exact ⟨by rw [ids_getElem?, ids_getElem?, h1in i ho1],
        by rw [ids_getElem?, ids_getElem?, h2in i ho2]⟩
    · intro hi
      have ho1 : ¬ InOrbit parent1.ids parent2.ids i := fun h => hi ((hmem1 i).mpr h)
      have ho2 : ¬ InOrbit parent2.ids parent1.ids i := fun h => ho1 ((hswap i).mpr h)
      exact ⟨by rw [ids_getElem?, ids_getElem?, h1out i ho1],
        by rw [ids_getElem?, ids_getElem?, h2out i ho2]⟩

/-- Witness for C19: parents `[4, 2, 0, 1, 3]` and `[3, 2, 1, 0, 4]`. -/
theorem cycleCrossover_complementary_witness :
    ∃ l1 l2 c1 c2,
      find [4, 2, 0, 1, 3] [3, 2, 1, 0, 4] 0 5 4 [] = some l1 ∧
      find [3, 2, 1, 0, 4] [4, 2, 0, 1, 3] 0 5 3 [] = some l2 ∧
      (∀ i, i ∈ l1 ↔ i ∈ l2) ∧
      CycleCrossover 5 5 (⟨[], 0⟩ : Image Unit) ⟨[], 0⟩
        ⟨[(4, ()), (2, ()), (0, ()), (1, ()), (3, ())], 0⟩
        ⟨[(3, ()), (2, ()), (1, ()), (0, ()), (4, ())], 0⟩ = some (c1, c2) ∧
      ∀ i, i < 5 →
        (i ∈ l1 → c1.ids[i]? = [4, 2, 0, 1, 3][i]? ∧ c2.ids[i]? = [3, 2, 1, 0, 4][i]?) ∧
        (i ∉ l1 → c1.ids[i]? = [3, 2, 1, 0, 4][i]? ∧ c2.ids[i]? = [4, 2, 0, 1, 3][i]?) :=
  cycleCrossover_complementary 5 5 ⟨[], 0⟩ ⟨[], 0⟩
    ⟨[(4, ()), (2, ()), (0, ()), (1, ()), (3, ())], 0⟩
    ⟨[(3, ()), (2, ()), (1, ()), (0, ()), (4, ())], 0⟩ (by decide)
    (by simp [Image.IsPermutation, Image.ids]; decide)
    (by simp [Image.IsPermutation, Image.ids]; decide) (by decide)

theorem find_in_bounds (n : Nat) (parent1 parent2 : Image β) (hn : 1 ≤ n)
    (hp1 : parent1.IsPermutation n) (hp2 : parent2.IsPermutation n) :
    ∃ l, 0 < l.length ∧ l.length ≤ n ∧
      (∀ fuel, l.length ≤ fuel →
        find parent1.ids parent2.ids 0 fuel (parent1.ids.getD 0 0) [] = some l) ∧
      (∀ fuel, fuel < l.length →
        find parent1.ids parent2.ids 0 fuel (parent1.ids.getD 0 0) [] = none) ∧
      (∀ i ∈ l, i < n ∧ i ≠ parent2.ids.length) ∧ l.Nodup ∧ l.getLast? = some 0 ∧
      ∃ images, setLoop parent1.images l parent2.images = some images := by
  have hl1 : parent1.images.length = n := by simpa [Image.ids] using hp1.length_eq
  have hl2 : parent2.images.length = n := by simpa [Image.ids] using hp2.length_eq
  have hi2 : parent2.ids.length = n := perm_range_length _ n hp2
  obtain ⟨l, hpos, hlen, hsome, hnone, hlt, hnd, hlast⟩ :=
    find_terminates parent1.ids parent2.ids n hp1 hp2 hn
  obtain ⟨r, hr, _⟩ := setLoop_spec parent1.images l parent2.images
    (fun p hp => by have := hlt p hp; omega) (fun p hp => by have := hlt p hp; omega)
  exact ⟨l, hpos, hlen, hsome, hnone,
    fun i hi => ⟨hlt i hi, by have := hlt i hi; omega⟩, hnd, hlast, r, hr⟩

/-- C20: for `n ≥ 1` and permutation parents, each of the two cycle searches of
`CycleCrossover` records a list `l` of at most `n` positions and makes exactly as many
calls as it records positions (fuel `l.length` gives the result, less fuel does not);
every recorded position is the result of a successful lookup (it is not the end position
of the other parent) and lies below `n`, no position is recorded twice, the last recorded
position is `0`, and the assignments `setImage(p, ...)` that follow stay inside the
vectors; so `CycleCrossover` returns with fuel `n`. -/
theorem cycleCrossover_find_terminates (n : Nat) (child1 child2 parent1 parent2 : Image β)
    (hn : 1 ≤ n) (hp1 : parent1.IsPermutation n) (hp2 : parent2.IsPermutation n) :
    (∃ l, 0 < l.length ∧ l.length ≤ n ∧
      (∀ fuel, l.length ≤ fuel →
        find parent1.ids parent2.ids 0 fuel (parent1.ids.getD 0 0) [] = some l) ∧
      (∀ fuel, fuel < l.length →
        find parent1.ids parent2.ids 0 fuel (parent1.ids.getD 0 0) [] = none) ∧
      (∀ i ∈ l, i < n ∧ i ≠ parent2.ids.length) ∧ l.Nodup ∧ l.getLast? = some 0 ∧
      ∃ images, setLoop parent1.images l parent2.images = some images) ∧
    (∃ l, 0 < l.length ∧ l.length ≤ n ∧
      (∀ fuel, l.length ≤ fuel →
        find parent2.ids parent1.ids 0 fuel (parent2.ids.getD 0 0) [] = some l) ∧
      (∀ fuel, fuel < l.length →
        find parent2.ids parent1.ids 0 fuel (parent2.ids.getD 0 0) [] = none) ∧
      (∀ i ∈ l, i < n ∧ i ≠ parent1.ids.length) ∧ l.Nodup ∧ l.getLast? = some 0 ∧
      ∃ images, setLoop parent2.images l parent1.images = some images) ∧
    ∃ c1 c2, CycleCrossover n n child1 child2 parent1 parent2 = some (c1, c2) := by
  refine ⟨find_in_bounds n parent1 parent2 hn hp1 hp2,
    find_in_bounds n parent2 parent1 hn hp2 hp1, ?_⟩
  obtain ⟨c1, c2, hc, _⟩ :=
    cycleCrossover_spec n n child1 child2 parent1 parent2 hp1 hp2 hn (le_refl n)
  exact ⟨c1, c2, hc⟩

/-- Witness for C20: parents `[4, 2, 0, 1, 3]` and `[3, 2, 1, 0, 4]`. -/
theorem cycleCrossover_find_terminates_witness :
    (∃ l, 0 < l.length ∧ l.length ≤ 5 ∧
      (∀ fuel, l.length ≤ fuel →
        find [4, 2, 0, 1, 3] [3, 2, 1, 0, 4] 0 fuel 4 [] = some l) ∧
      (∀ fuel, fuel < l.length →
        find [4, 2, 0, 1, 3] [3, 2, 1, 0, 4] 0 fuel 4 [] = none) ∧
      (∀ i ∈ l, i < 5 ∧ i ≠ 5) ∧ l.Nodup ∧ l.getLast? = some 0 ∧
      ∃ images, setLoop [(4, ()), (2, ()), (0, ()), (1, ()), (3, ())] l
        [(3, ()), (2, ()), (1, ()), (0, ()), (4, ())] = some images) ∧
    (∃ l, 0 < l.length ∧ l.length ≤ 5 ∧
      (∀ fuel, l.length ≤ fuel →
        find [3, 2, 1, 0, 4] [4, 2, 0, 1, 3] 0 fuel 3 [] = some l) ∧
      (∀ fuel, fuel < l.length →
        find [3, 2, 1, 0, 4] [4, 2, 0, 1, 3] 0 fuel 3 [] = none) ∧
      (∀ i ∈ l, i < 5 ∧ i ≠ 5) ∧ l.Nodup ∧ l.getLast? = some 0 ∧
      ∃ images, setLoop [(3, ()), (2, ()), (1, ()), (0, ()), (4, ())] l
        [(4, ()), (2, ()), (0, ()), (1, ()), (3, ())] = some images) ∧
    ∃ c1 c2, CycleCrossover 5 5 (⟨[], 0⟩ : Image Unit) ⟨[], 0⟩
        ⟨[(4, ()), (2, ()), (0, ()), (1, ()), (3, ())], 0⟩
        ⟨[(3, ()), (2, ()), (1, ()), (0, ()), (4, ())], 0⟩ = some (c1, c2) :=
  cycleCrossover_find_terminates 5 ⟨[], 0⟩ ⟨[], 0⟩
    ⟨[(4, ()), (2, ()), (0, ()), (1, ()), (3, ())], 0⟩
    ⟨[(3, ()), (2, ()), (1, ()), (0, ()), (4, ())], 0⟩ (by decide)
    (by simp [Image.IsPermutation, Image.ids]; decide)
    (by simp [Image.IsPermutation, Image.ids]; decide)

end GeneticAlgorithm
